import Mathlib

/-!
Verification development for the git-log graph reconstruction core
(`parse` in the webview sources): a shallow embedding of the row/grid
parser that turns `git log --graph` text, a branch list and a stash list
into commits, branches and per-commit curve segments.

Modelling conventions:
* JS numbers are modelled as exact rationals (the canonical fraction
  type `Q` defined below; all arithmetic the code performs is exact).
* JS strings are Lean `String`s; the splitting / trimming / searching
  primitives the code uses are re-implemented on `List Char` so that they
  reduce well and their semantics are explicit.  The few string indices
  used by the code are code-point based here (all relevant data is ASCII).
* Mutable JS objects with identity (`Branch` values are shared and
  mutated in place) are modelled with an explicit store: every branch
  ever created gets a `uid` (its index in `store`), and references to a
  branch are `uid`s.  The live registry (the JS `branches` array) is the
  ordered list of live uids.  `VisLine`s of already-pushed commits that
  the code later mutates through aliases are addressed by their position
  in that commit, which is recorded alongside the previous-row
  accumulator snapshot.
* Exceptions (`throw`, and the two reachable `TypeError`s of the
  original) are modelled with `Except ParseErr`.
-/

set_option maxRecDepth 20000

namespace GG

/-- The apostrophe character (used by the merge-subject phrasings). -/
def quoteChar : Char := Char.ofNat 39

/-! ## Exact rational numbers

JS numbers are modelled by exact rationals.  `Rat` of the library does
not reduce inside the kernel (its normalization is defined by
well-founded recursion), so the embedding carries its own canonical
fraction type whose operations are structurally recursive: values are
always produced by `Q.make`, hence in lowest terms with a positive
denominator, and structural equality is value equality. -/

/-- A canonical fraction. -/
structure Q where
  num : Int
  den : Nat
  deriving DecidableEq, Repr

namespace Q

/-- Fuel-driven Euclid gcd (the first argument strictly decreases, so
`m + 1` fuel always suffices). -/
def gcdF : Nat → Nat → Nat → Nat
  | 0, _, n => n
  | f + 1, m, n => if m = 0 then n else gcdF f (n % m) m

/-- Greatest common divisor. -/
def gcd (m n : Nat) : Nat := gcdF (m + 1) m n

/-- Build the canonical fraction `n / d` (for `d ≠ 0`; the embedding
divides only by non-zero constants). -/
def make (n d : Int) : Q :=
  if d = 0 then ⟨0, 1⟩
  else
    let n := if d < 0 then -n else n
    let dn : Nat := d.natAbs
    let g := gcd n.natAbs dn
    ⟨n / (g : Int), dn / g⟩

/-- Addition. -/
def add (a b : Q) : Q := make (a.num * b.den + b.num * a.den) (a.den * b.den)

/-- Subtraction. -/
def sub (a b : Q) : Q := make (a.num * b.den - b.num * a.den) (a.den * b.den)

/-- Multiplication. -/
def mul (a b : Q) : Q := make (a.num * b.num) (a.den * b.den)

/-- Division. -/
def div (a b : Q) : Q := make (a.num * b.den) (a.den * b.num)

/-- Negation (canonical form is preserved). -/
def neg (a : Q) : Q := ⟨-a.num, a.den⟩

/-- Strict order by cross multiplication (denominators are positive on
all values the embedding builds). -/
def blt (a b : Q) : Bool := a.num * (b.den : Int) < b.num * (a.den : Int)

/-- The integer `n` as a fraction. -/
def ofN (n : Nat) : Q := ⟨(n : Int), 1⟩

end Q

instance : Add Q := ⟨Q.add⟩
instance : Sub Q := ⟨Q.sub⟩
instance : Mul Q := ⟨Q.mul⟩
instance : Div Q := ⟨Q.div⟩
instance : Neg Q := ⟨Q.neg⟩
instance : LT Q := ⟨fun a b => Q.blt a b = true⟩
instance (a b : Q) : Decidable (a < b) :=
  inferInstanceAs (Decidable (Q.blt a b = true))
instance (n : Nat) : OfNat Q n := ⟨Q.ofN n⟩

/-! ## List / string primitives with JS semantics -/

/-- Replace the element at index `i` (no-op when out of range). -/
def listModify (l : List α) (i : Nat) (f : α → α) : List α :=
  match l, i with
  | [], _ => []
  | x :: xs, 0 => f x :: xs
  | x :: xs, n + 1 => x :: listModify xs n f

/-- Index access at a possibly negative index, as JS array indexing
(out of range gives `undefined`). -/
def atInt (l : List α) (k : Int) : Option α :=
  if k < 0 then none else l[k.toNat]?

/-- Fuel-driven worker of `splitList` (structural recursion on the
fuel so that it reduces definitionally; `splitList` passes the length
of the list, which always suffices). -/
def splitListF (s0 : Char) (srest : List Char) : Nat → List Char → List (List Char)
  | _, [] => [[]]
  | 0, l => [l]
  | f + 1, c :: rest =>
    if (s0 :: srest).isPrefixOf (c :: rest) then
      [] :: splitListF s0 srest f ((c :: rest).drop (srest.length + 1))
    else
      match splitListF s0 srest f rest with
      | [] => [[c]]
      | g :: gs => (c :: g) :: gs

/-- Split of a character list at every occurrence of the (non-empty)
separator `s0 :: srest`, scanning left to right, as JS `String.split`. -/
def splitList (s0 : Char) (srest : List Char) (l : List Char) : List (List Char) :=
  splitListF s0 srest l.length l

/-- JS `String.prototype.split`: with a non-empty separator, split on
every occurrence; with the empty separator, split into single characters. -/
def jsSplit (s : String) (sep : String) : List String :=
  match sep.data with
  | [] => s.data.map (fun c => String.mk [c])
  | s0 :: srest => (splitList s0 srest s.data).map String.mk

/-- JS `String.prototype.startsWith`. -/
def jsStartsWith (s pre : String) : Bool :=
  pre.data.isPrefixOf s.data

/-- JS `String.prototype.slice(n)` (drop the first `n` characters). -/
def jsDrop (n : Nat) (s : String) : String :=
  String.mk (s.data.drop n)

/-- JS `String.prototype.slice(0, n)` (keep the first `n` characters). -/
def jsTake (n : Nat) (s : String) : String :=
  String.mk (s.data.take n)

/-- Whitespace characters removed by JS `trimEnd` (the ASCII ones;
all graph glyph data is ASCII). -/
def jsIsWhite (c : Char) : Bool :=
  c = ' ' || c = '\t' || c = '\n' || c = '\r' || c = Char.ofNat 11 || c = Char.ofNat 12

/-- JS `String.prototype.trimEnd`. -/
def jsTrimEnd (s : String) : List Char :=
  (s.data.reverse.dropWhile jsIsWhite).reverse

/-- JS `Array.prototype.join(sep)`. -/
def jsJoin (sep : String) : List String → String
  | [] => ""
  | [x] => x
  | x :: y :: rest => x ++ sep ++ jsJoin sep (y :: rest)

/-- JS `String.prototype.indexOf` for a single character: the index of
its first occurrence, `-1` when absent. -/
def jsIndexOfChar (s : String) (c : Char) : Int :=
  match s.data.findIdx? (fun d => d = c) with
  | some n => (n : Int)
  | none => -1

/-- Does `sub` occur as a contiguous run inside `l`? -/
def hasSub (sub : List Char) : List Char → Bool
  | [] => sub.isEmpty
  | c :: rest => sub.isPrefixOf (c :: rest) || hasSub sub rest

/-- JS `x || y` on numbers (here: on comparator key differences):
`x` when it is non-zero, else `y`. -/
def jsOr (x y : Int) : Int := if x = 0 then y else x

/-- Decimal digits of `n` (most significant first; fuel-driven, `n + 1`
fuel always suffices). -/
def natDigits : Nat → Nat → List Char
  | 0, _ => []
  | f + 1, n =>
    if n < 10 then [Char.ofNat (48 + n)]
    else natDigits f (n / 10) ++ [Char.ofNat (48 + n % 10)]

/-- Decimal rendering of an integer (the template-literal interpolation
of the counter in synthesized branch ids). -/
def intStr (i : Int) : String :=
  match i with
  | .ofNat n => String.mk (natDigits (n + 1) n)
  | .negSucc n => String.mk ('-' :: natDigits (n + 2) (n + 1))

/-- Pair each list element with its index, starting at `i`. -/
def withIdx (i : Nat) : List α → List (Nat × α)
  | [] => []
  | x :: xs => (i, x) :: withIdx (i + 1) xs

/-- Stable insertion used to model JS `Array.prototype.sort`:
`cmpLt a b` states that the consistent comparator orders `a` strictly
before `b`; an element is inserted behind every element strictly before
it, which together with insertion in original order gives the stable,
sorted result that the JS specification guarantees. -/
def jsInsert (cmpLt : α → α → Bool) (x : α) : List α → List α
  | [] => [x]
  | y :: ys => if cmpLt y x then y :: jsInsert cmpLt x ys else x :: y :: ys

/-- Stable sort by a consistent comparator (see `jsInsert`). -/
def jsSort (cmpLt : α → α → Bool) : List α → List α
  | [] => []
  | x :: xs => jsInsert cmpLt x (jsSort cmpLt xs)

/-- Ordered-association-list lookup (JS plain objects keyed by branch id
preserve insertion order for the iteration the code does). -/
def assocFind (key : String) : List (String × β) → Option β
  | [] => none
  | (k, v) :: rest => if k = key then some v else assocFind key rest

/-- Update the value stored under `key`, keeping the entry position. -/
def assocUpdate (key : String) (f : β → β) : List (String × β) → List (String × β)
  | [] => []
  | (k, v) :: rest =>
    if k = key then (k, f v) :: rest else (k, v) :: assocUpdate key f rest

/-! ## Data model -/

/-- A branch entity (the JS `Branch` object).  `type` is always the
string `branch` in the source and is omitted.  `remote_name` and
`tracking_remote_name` are `none` when the JS field is `undefined`;
the code sometimes stores the empty string, which is kept distinct. -/
structure Branch where
  name : String
  color : Option String := none
  remote_name : Option String := none
  tracking_remote_name : Option String := none
  id : String
  inferred : Bool := false
  deriving DecidableEq, Repr

/-- A commit-ref token as carried through parsing: a tag literal, a
reference to a live branch object (by uid, with its id snapshot for
sorting), or a synthetic stash ref. -/
inductive GitRef where
  | tag (id : String) (name : String)
  | br (uid : Nat) (id : String)
  | stash (id : String) (name : String)
  deriving DecidableEq, Repr

/-- The id string a ref contributes to `git_ref_sort`. -/
def refSortId : GitRef → String
  | .tag id _ => id
  | .br _ id => id
  | .stash id _ => id

/-- Is this ref a branch ref (the `is_branch` predicate of the source)? -/
def isBranchRef : GitRef → Bool
  | .br _ _ => true
  | _ => false

/-- One smooth connector segment for one branch across one commit row.
Fields that the JS code leaves `undefined` until later are `Option`s;
`x0`/`xn` are always set by every glyph rule that produces a line. -/
structure VisLine where
  x0 : Q
  xn : Q
  y0 : Option Q := none
  yn : Option Q := none
  xcs : Option Q := none
  ycs : Option Q := none
  xce : Option Q := none
  yce : Option Q := none
  branch : Option Nat := none
  deriving DecidableEq, Repr

/-- One parsed commit row (processing form; branch references are uids). -/
structure Commit where
  i : Nat
  vis_lines : List VisLine
  branch : Option Nat
  hash_long : String
  hash : String
  author_name : String
  author_email : String
  datetime : String
  refs : List GitRef
  subject : String
  merge : Bool := false
  deriving DecidableEq, Repr

/-- One cell of the processed glyph grid: the glyph and the branch (uid)
that owns it, if any. -/
structure Cell where
  char : Char
  branch : Option Nat
  deriving DecidableEq, Repr

/-- The state threaded through parsing.  `store` holds every branch ever
created (uid = index, never removed); `registry` is the live, ordered
JS `branches` array as a list of uids.  `last_densened` keeps, for each
branch id of the previous commit row, the accumulated line and its
position inside that commit, so that later aliased mutation of the
line can be replayed on the commit. -/
structure PSt where
  store : List Branch := []
  registry : List Nat := []
  commits : List Commit := []
  densened : List (String × VisLine) := []
  last_densened : List (String × VisLine × Nat) := []
  xn_by : List (String × Q) := []
  last_vis : List Cell := []
  deriving DecidableEq, Repr

/-- The errors `parse` can raise: the unknown-glyph fatal error (which
in the source carries the row number in its message), the `TypeError`
from reading `startsWith` of an undefined ref name while building the
branch registry, and the `TypeError` from reading `branch` of an
undefined cell at the dash-run walk of the backslash rule. -/
inductive ParseErr where
  | unknownGlyph (row_no : Nat)
  | refNameUndefined
  | cellUndefined
  deriving DecidableEq, Repr

/-- Branch lookup in the store (uids handed out by `newBranch` are
always in range; the default is never reached in a run of `parse`). -/
def branchOf (st : PSt) (uid : Nat) : Branch :=
  (st.store[uid]?).getD { name := "", id := "" }

/-- Apply `f` to the branch object stored under `uid`. -/
def storeModify (st : PSt) (uid : Nat) (f : Branch → Branch) : PSt :=
  { st with store := listModify st.store uid f }

/-- The id a new branch receives: `remote/name` when a non-empty remote
name is given (the JS falsy check treats the empty string like
`undefined`), else just the name. -/
def nbId (branch_name : String) (remote_name : Option String) : String :=
  match remote_name with
  | some r => if r = "" then branch_name else r ++ "/" ++ branch_name
  | none => branch_name

/-- The `new_branch` helper of the source: builds the `Branch` object,
pushes it into the registry, and returns its uid. -/
def newBranch (st : PSt) (branch_name : String) (remote_name : Option String)
    (tracking_remote_name : Option String) : Nat × PSt :=
  let b : Branch := { name := branch_name, remote_name, tracking_remote_name,
                      id := nbId branch_name remote_name }
  let uid := st.store.length
  (uid, { st with store := st.store ++ [b], registry := st.registry ++ [uid] })

/-! ## Ref sorting (`git_ref_sort`) -/

/-- The comparator body of `git_ref_sort`, expressed on the two id
strings (every ref kind is compared through its `id`):
`Number(a_is_tag || !a.id.startsWith(refs/)) - Number(...b...) ||
 Number(b_is_tag) - Number(a_is_tag) ||
 a.id.indexOf(/) - b.id.indexOf(/)`. -/
def gitRefSortIds (aid bid : String) : Int :=
  let aTag : Bool := jsStartsWith aid "tag: "
  let bTag : Bool := jsStartsWith bid "tag: "
  let aK1 : Int := if aTag || !jsStartsWith aid "refs/" then 1 else 0
  let bK1 : Int := if bTag || !jsStartsWith bid "refs/" then 1 else 0
  jsOr (aK1 - bK1)
    (jsOr ((if bTag then 1 else 0) - (if aTag then 1 else 0))
      (jsIndexOfChar aid '/' - jsIndexOfChar bid '/'))

/-- Strict precedence of refs under `git_ref_sort`. -/
def refLt (a b : GitRef) : Bool :=
  gitRefSortIds (refSortId a) (refSortId b) < 0

/-- Strict precedence of branches under `git_ref_sort` (the final
branch listing is sorted with the same comparator). -/
def branchLt (a b : Branch) : Bool :=
  gitRefSortIds a.id b.id < 0

/-! ## The merge-subject pattern

The backslash merge-marker rule matches the previous commit subject
against the regular expression

  `^Merge (?:(?:remote[ -]tracking )?branch QUOTE([^ ]+)QUOTE.*)|(?:pull request #[0-9]+ from (.+))$`

(QUOTE is the apostrophe).  The top-level alternation splits right
before the pipe, so the first alternative is anchored at the start only
and the second is anchored at the end only.  `matchMergeSubject` returns
what the source reads out of the match object, `m[1] || m[2]`. -/

/-- First alternative: after `Merge ` and an optional
`remote tracking ` / `remote-tracking ` prefix, `branch QUOTE` followed
by a non-space run and a closing quote.  The greedy `[^ ]+` with
backtracking captures up to the last quote inside the maximal non-space
run (at least one character). -/
def matchMergeAlt1 (s : String) : Option String :=
  if jsStartsWith s "Merge " then
    let t := (s.data.drop 6)
    let t :=
      if ("remote-tracking ".data.isPrefixOf t) || ("remote tracking ".data.isPrefixOf t) then
        t.drop 16
      else t
    let pre := "branch ".data ++ [quoteChar]
    if pre.isPrefixOf t then
      let u := t.drop 8
      let run := u.takeWhile (fun c => c ≠ ' ')
      match (run.findIdxs (fun c => c = quoteChar)).getLast? with
      | some j => if 1 ≤ j then some (String.mk (run.take j)) else none
      | none => none
    else none
  else none

/-- Second alternative: the leftmost occurrence of
`pull request #<digits> from <rest>` where `<rest>` is non-empty and
reaches the end of the subject. -/
def matchMergeAlt2 : List Char → Option String
  | [] => none
  | c :: rest =>
    let here :=
      if "pull request #".data.isPrefixOf (c :: rest) then
        let after := (c :: rest).drop 14
        let ds := after.takeWhile Char.isDigit
        let tail := after.drop ds.length
        if ds ≠ [] && " from ".data.isPrefixOf tail then
          let cap := tail.drop 6
          if cap ≠ [] then some (String.mk cap) else none
        else none
      else none
    match here with
    | some cap => some cap
    | none => matchMergeAlt2 rest

/-- `subject.match(...)`, reduced to the single capture the source uses. -/
def matchMergeSubject (s : String) : Option String :=
  match matchMergeAlt1 s with
  | some cap => some cap
  | none => matchMergeAlt2 s.data

/-! ## Ref resolution for one commit row -/

/-- Map one token of the comma-separated ref list: keep the target of a
`<old> -> <target>` rename when the target is non-empty, else the token. -/
def arrowTarget (r : String) : String :=
  match (jsSplit r " -> ")[1]? with
  | some t => if t = "" then r else t
  | none => r

/-- `branches.find((branch) => id === branch.id)`: the first live branch
whose id equals the token. -/
def findBranchByStrId (st : PSt) (id : String) : Option Nat :=
  st.registry.find? (fun uid => (branchOf st uid).id = id)

/-- Resolve the ref CSV of a commit row into typed, ordered refs:
split on `, `, strip rename arrows, drop the reflog stash marker and
empty tokens, map to tag refs or registry branches (unknown tokens are
dropped with a warning), and sort with `git_ref_sort`. -/
def resolveRefs (st : PSt) (refs_csv : String) : List GitRef :=
  let toks := (jsSplit refs_csv ", ").map arrowTarget
  let toks := toks.filter (fun r => r ≠ "refs/stash")
  let toks := toks.filter (fun r => r ≠ "")
  let refs := toks.filterMap (fun id =>
    if jsStartsWith id "tag: " then
      some (GitRef.tag id (jsDrop 5 id))
    else
      match findBranchByStrId st id with
      | some uid => some (GitRef.br uid ((branchOf st uid).id))
      | none => none)
  jsSort refLt refs

/-- The branch tip of a row: the first branch-typed ref after sorting. -/
def branchTip (refs : List GitRef) : Option Nat :=
  match refs.find? isBranchRef with
  | some (.br uid _) => some uid
  | _ => none

/-! ## Retroactive identity repair -/

/-- Repoint to `tip` every line of a commit that references `wrong`. -/
def repointLines (wrong tip : Nat) (ls : List VisLine) : List VisLine :=
  ls.map (fun v => if v.branch = some wrong then { v with branch := some tip } else v)

/-- Does some line of the list reference `wrong`? -/
def hasWrong (wrong : Nat) (ls : List VisLine) : Bool :=
  ls.any (fun v => v.branch = some wrong)

/-- Repoint every line of one commit that references `wrong`. -/
def repointCommit (wrong tip : Nat) (c : Commit) : Commit :=
  { c with vis_lines := repointLines wrong tip c.vis_lines }

/-- The backward repair scan: starting at index `fuel - 1` (the most
recently produced commit) and walking toward index 0, repoint the lines
of every commit that still references `wrong`, stopping at the first
commit that does not (or when running past the first commit). -/
def repairFrom (wrong tip : Nat) : Nat → List Commit → List Commit
  | 0, cs => cs
  | k + 1, cs =>
    match cs[k]? with
    | none => cs
    | some c =>
      if hasWrong wrong c.vis_lines then
        repairFrom wrong tip k (listModify cs k (repointCommit wrong tip))
      else cs

/-- `branches.splice(branches.indexOf(wrong_branch), 1)`: remove the
first occurrence; when the element is absent `indexOf` gives `-1` and
`splice(-1, 1)` removes the LAST element instead. -/
def spliceRemove (registry : List Nat) (uid : Nat) : List Nat :=
  if registry.contains uid then registry.erase uid else registry.dropLast

/-- The whole repair action fired by the commit-glyph rule when the
branch tip is known and the cell diagonally above-left was a backslash
owned by `wrong`. -/
def applyRepair (wrong tip : Nat) (st : PSt) : PSt :=
  { st with
    commits := repairFrom wrong tip st.commits.length st.commits,
    registry := spliceRemove st.registry wrong }

/-! ## Per-glyph branch resolution -/

/-- The registry-size-derived counter used in synthesized ids
(`branches.length - 1` in the source, as a JS number). -/
def regCounter (st : PSt) : Int :=
  (st.registry.length : Int) - 1

/-- The merge-marker action of the backslash rule: flag the most
recently produced commit as a merge and synthesize the merging branch
from its subject (or anonymously), `inferred = true` in both cases. -/
def mergeMarker (st : PSt) : Option Nat × PSt :=
  let st :=
    match st.commits.getLast? with
    | some _ =>
      { st with
        commits := listModify st.commits (st.commits.length - 1) (fun c => { c with merge := true }) }
    | none => st
  let subjectMatch :=
    match st.commits.getLast? with
    | some c => matchMergeSubject c.subject
    | none => none
  let (uid, st) :=
    match subjectMatch with
    | some cap =>
      let branch_id := cap ++ "~" ++ intStr (regCounter st)
      let parts := jsSplit branch_id "/"
      -- `if (split.length)` is always true: split yields at least one part
      if parts.length ≠ 0 then
        newBranch st ((parts.getLast?).getD "") (some (jsJoin "/" (parts.dropLast))) none
      else
        newBranch st branch_id none none
    | none => newBranch st ("~" ++ intStr (regCounter st)) none none
  (some uid, storeModify st uid (fun b => { b with inferred := true }))

/-- The dash-run walk of the backslash rule: starting at `k`, step left
while the previous-row cell is a dash; gives the cell the walk stops on,
or `none` when it runs off the row (in which case the source reads
`.branch` of `undefined` and dies). -/
def dashWalk (lv : List Cell) : Nat → Int → Option Cell
  | 0, k => atInt lv k
  | f + 1, k =>
    match atInt lv k with
    | some c => if c.char = '-' then dashWalk lv f (k - 1) else some c
    | none => none

/-- Resolve one glyph cell: compute the owning branch (if any) with the
side effects the rules carry (repair, merge flagging, branch creation).
`vis_acc` holds the already-resolved cells of the same row to the east
(`vis_acc[0]` is the cell at `i+1`). -/
def resolveCell (tip : Option Nat) (vis_chars : List Char) (i : Nat) (c : Char)
    (st : PSt) (vis_acc : List Cell) : Except ParseErr (Option Nat × PSt) :=
  let v_n := st.last_vis[i]?
  let v_nw := atInt st.last_vis ((i : Int) - 1)
  let v_w_char := atInt vis_chars ((i : Int) - 1)
  let v_ne := st.last_vis[i + 1]?
  let v_nee := st.last_vis[i + 2]?
  let v_e := vis_acc[0]?
  let v_ee := vis_acc[1]?
  match c with
  | '*' =>
    match tip with
    | some t =>
      let st :=
        match v_nw with
        | some nw =>
          if nw.char = '\\' then
            match nw.branch with
            | some wrong => applyRepair wrong t st
            | none => st
          else st
        | none => st
      .ok (some t, st)
    | none =>
      match v_n with
      | some n =>
        match n.branch with
        | some b => .ok (some b, st)
        | none => resolveStarFallback st v_nw v_ne
      | none => resolveStarFallback st v_nw v_ne
  | '|' =>
    match v_n with
    | some n =>
      match n.branch with
      | some b => .ok (some b, st)
      | none => .ok (resolvePipeFallback v_nw v_ne, st)
    | none => .ok (resolvePipeFallback v_nw v_ne, st)
  | '_' => .ok (v_ee.bind Cell.branch, st)
  | '/' =>
    if v_ne.any (fun n => n.char = '*') then .ok (v_ne.bind Cell.branch, st)
    else if v_ne.any (fun n => n.char = '|') then
      if v_nee.any (fun n => n.char = '/' || n.char = '_') then
        .ok (v_nee.bind Cell.branch, st)
      else
        .ok (v_ne.bind Cell.branch, st)
    else if v_ne.any (fun n => n.char = '/') then .ok (v_ne.bind Cell.branch, st)
    else if v_n.any (fun n => n.char = '\\' || n.char = '|') then
      .ok (v_n.bind Cell.branch, st)
    else .ok (none, st)
  | '\\' =>
    if v_e.any (fun e => e.char = '|') then .ok (v_e.bind Cell.branch, st)
    else if v_w_char = some '|' then
      .ok (mergeMarker st)
    else if v_nw.any (fun n => n.char = '|' || n.char = '\\') then
      .ok (v_nw.bind Cell.branch, st)
    else if v_nw.any (fun n => n.char = '.' || n.char = '-') then
      match dashWalk st.last_vis (i + 2) ((i : Int) - 2) with
      | some cell => .ok (cell.branch, st)
      | none => .error .cellUndefined
    else if v_nw.any (fun n => n.char = '.') then
      -- unreachable duplicate arm of the source, kept for faithfulness;
      -- it reads `last_vis[i-2].char` and `last_vis[i-3].branch` unguarded
      match atInt st.last_vis ((i : Int) - 2) with
      | none => .error .cellUndefined
      | some c2 =>
        if c2.char = '-' then
          match atInt st.last_vis ((i : Int) - 3) with
          | none => .error .cellUndefined
          | some c3 => .ok (c3.branch, st)
        else .ok (none, st)
    else .ok (none, st)
  | _ => .ok (none, st)
where
  /-- Shared fallback chain of the commit glyph: a backslash above-left,
  then a slash above-right, else a fresh anonymous inferred branch. -/
  resolveStarFallback (st : PSt) (v_nw v_ne : Option Cell) :
      Except ParseErr (Option Nat × PSt) :=
    if v_nw.any (fun n => n.char = '\\') then .ok (v_nw.bind Cell.branch, st)
    else if v_ne.any (fun n => n.char = '/') then .ok (v_ne.bind Cell.branch, st)
    else
      let (uid, st) := newBranch st ("inferred~" ++ intStr (regCounter st)) none none
      .ok (some uid, storeModify st uid (fun b => { b with inferred := true }))
  /-- Fallback chain of the pipe glyph (no branch creation). -/
  resolvePipeFallback (v_nw v_ne : Option Cell) : Option Nat :=
    if v_nw.any (fun n => n.char = '\\') then v_nw.bind Cell.branch
    else if v_ne.any (fun n => n.char = '/') then v_ne.bind Cell.branch
    else none

/-! ## Segment accumulation (densening) -/

/-- The raw (pre-offset) line descriptor of one owned glyph cell.  The
commit glyph marks its visual birth (`y0 = 0.5`) when the cell directly
above is missing, empty or blank. -/
def cellVisLine (c : Char) (i : Nat) (last_vis : List Cell) : VisLine :=
  match c with
  | '*' =>
    let birth :=
      match last_vis[i]? with
      | none => true
      | some cell => cell.char = ' '
    { x0 := 1/2, xn := 1/2, y0 := if birth then some (1/2) else none }
  | '|' => { x0 := 1/2, xn := 1/2, yn := some (1/2) }
  | '_' => { x0 := 1, xn := 0 }
  | '/' => { x0 := 1, xn := -(1/2), xce := some (1/2) }
  | '\\' => { x0 := -(1/2), xn := 1 }
  | _ => { x0 := 0, xn := 0 }

/-- Shift a cell line by its column index (`x0 += i` etc.; the control
points are shifted only when set, matching the source). -/
def shiftVisLine (i : Nat) (v : VisLine) : VisLine :=
  { v with
    x0 := v.x0 + Q.ofN i
    xn := v.xn + Q.ofN i
    xcs := v.xcs.map (fun q => q + Q.ofN i)
    xce := v.xce.map (fun q => q + Q.ofN i) }

/-- Merge one owned cell into the per-branch accumulator for the
current output row: a later cell of the same branch only overwrites the
end point (`xn`, and `xce` even when unset); the first cell creates the
entry and records the owning branch. -/
def accumulate (st : PSt) (uid : Nat) (v : VisLine) : PSt :=
  let bid := (branchOf st uid).id
  let st :=
    match assocFind bid st.densened with
    | some _ =>
      { st with densened := assocUpdate bid (fun old => { old with xn := v.xn, xce := v.xce }) st.densened }
    | none =>
      { st with densened := st.densened ++ [(bid, { v with branch := some uid })] }
  match assocFind bid st.xn_by with
  | some _ => { st with xn_by := assocUpdate bid (fun _ => v.xn) st.xn_by }
  | none => { st with xn_by := st.xn_by ++ [(bid, v.xn)] }

/-- Process the glyph cells of one row right-to-left: `items` is the
reversed indexed glyph list, `vis_acc` the already-resolved cells to the
east, `cb` the running commit-branch assignment (set by every commit
glyph, to nothing when that glyph resolved to no branch). -/
def cellLoop (tip : Option Nat) (vis_chars : List Char) :
    List (Nat × Char) → PSt → List Cell → Option Nat →
    Except ParseErr (PSt × List Cell × Option Nat)
  | [], st, vis_acc, cb => .ok (st, vis_acc, cb)
  | (i, c) :: rest, st, vis_acc, cb => do
    let (vb, st2) ← resolveCell tip vis_chars i c st vis_acc
    let cb2 := if c = '*' then vb else cb
    let st3 :=
      match vb with
      | some uid => accumulate st2 uid (shiftVisLine i (cellVisLine c i st2.last_vis))
      | none => st2
    cellLoop tip vis_chars rest st3 (⟨c, vb⟩ :: vis_acc) cb2

/-! ## Curve synthesis at commit rows -/

/-- Fill the defaults of a finalized segment: full row height, end
control point at the end with a slight upward offset. -/
def fixDefaults (r : Q) (v : VisLine) : VisLine :=
  let v := if v.y0 = none then { v with y0 := some 0 } else v
  let v := if v.yn = none then { v with yn := some 1 } else v
  let v := if v.xce = none then { v with xce := some v.xn } else v
  if v.yce = none then { v with yce := some (1 - r / 2) } else v

/-- Finalize one accumulated segment: apply the defaults, then either
join it smoothly to the previous commit segment of the same branch id
(pinning both control points and moving the shared junction to the
average, which mutates the aliased line inside the previous commit,
passed here as `lastLines`), or give a fresh segment its starting
control point. -/
def curveEntry (r : Q) (last_densened : List (String × VisLine × Nat))
    (lastLines : List VisLine) (key : String) (v0 : VisLine) :
    VisLine × List VisLine :=
  let v := fixDefaults r v0
  match assocFind key last_densened with
  | some (lastCopy, pos) =>
    let last_xce := lastCopy.x0 + (lastCopy.xn - lastCopy.x0) * (1 - r)
    let xcs := v.x0 + (v.xn - v.x0) * r
    let middle_x := (xcs + last_xce) / 2
    ({ v with x0 := middle_x, xcs := some xcs, ycs := some r },
     listModify lastLines pos (fun lv =>
       { lv with xn := middle_x, xce := some last_xce, yce := some (1 - r), yn := some 1 }))
  | none =>
    let v :=
      if v.xcs = none then
        { v with xcs := some (if v.xn > v.x0 then v.x0 + 1 else v.x0) }
      else v
    ({ v with ycs := some r }, lastLines)

/-- The z-order key of a finalized segment: `(xcs || 0) + (xce || 0)`. -/
def zKey (v : VisLine) : Q := v.xcs.getD 0 + v.xce.getD 0

/-- Comparator order of the vis-line sort: descending by `zKey`
(leftmost segments are painted last, on top). -/
def visPairLt (a b : String × VisLine) : Bool :=
  zKey b.2 < zKey a.2

/-- Replace the vis lines stored in the most recently pushed commit. -/
def setLastVisLines (cs : List Commit) (ls : List VisLine) : List Commit :=
  match cs.getLast? with
  | none => cs
  | some c => cs.dropLast ++ [{ c with vis_lines := ls }]

/-- Close the current output row: finalize every accumulated segment in
insertion order (threading the previous commit lines through the
aliased continuity mutations), sort them into z-order, push the new
commit, snapshot the accumulator (with positions) and clear it. -/
def finalizeRow (r : Q) (row_no : Nat)
    (hash_long hash author_name author_email datetime subject : String)
    (refs : List GitRef) (cb : Option Nat) (st : PSt) : PSt :=
  let lastLines := ((st.commits.getLast?).map Commit.vis_lines).getD []
  let step := fun (acc : List (String × VisLine) × List VisLine) (kv : String × VisLine) =>
    let r2 := curveEntry r st.last_densened acc.2 kv.1 kv.2
    (acc.1 ++ [(kv.1, r2.1)], r2.2)
  let folded := st.densened.foldl step ([], lastLines)
  let sortedPairs := jsSort visPairLt folded.1
  let newCommit : Commit :=
    { i := row_no
      vis_lines := sortedPairs.map (fun kv => kv.2)
      branch := cb
      hash_long, hash, author_name, author_email, datetime, refs, subject }
  { st with
    commits := setLastVisLines st.commits folded.2 ++ [newCommit]
    last_densened := (withIdx 0 sortedPairs).map (fun p => (p.2.1, p.2.2, p.1))
    densened := [] }

/-! ## The row loop -/

/-- The closed glyph alphabet. -/
def graph_chars : List Char := ['*', '\\', '/', ' ', '_', '|', '-', '.']

/-- Process one row of the log output. -/
def rowStep (sep : String) (r : Q) (row_no : Nat) (row : String) (st : PSt) :
    Except ParseErr PSt :=
  if row = "... " then .ok st
  else
    let fields := jsSplit row sep
    let vis_str := (fields[0]?).getD ""
    let hash_long := (fields[1]?).getD ""
    let hash := (fields[2]?).getD ""
    let author_name := (fields[3]?).getD ""
    let author_email := (fields[4]?).getD ""
    let iso_datetime := (fields[5]?).getD ""
    let refs_csv := (fields[6]?).getD ""
    let subject := (fields[7]?).getD ""
    let refs := resolveRefs st refs_csv
    let tip := branchTip refs
    let vis_chars := jsTrimEnd vis_str
    if vis_chars.any (fun v => !graph_chars.contains v) then
      .error (.unknownGlyph row_no)
    else
      let datetime := jsTake 19 iso_datetime
      do
        let (st2, vis, cb) ← cellLoop tip vis_chars (withIdx 0 vis_chars).reverse st [] none
        let st3 :=
          if subject ≠ "" then
            finalizeRow r row_no hash_long hash author_name author_email datetime subject refs cb st2
          else st2
        .ok { st3 with last_vis := vis }

/-- Fold `rowStep` over the indexed rows. -/
def rowLoop (sep : String) (r : Q) : List (Nat × String) → PSt → Except ParseErr PSt
  | [], st => .ok st
  | (row_no, row) :: rest, st => do
    let st2 ← rowStep sep r row_no row st
    rowLoop sep r rest st2

/-! ## Branch registry construction -/

/-- Process one line of `branch_data`: destructure
`<tracking-remote-or-empty><SEP><ref-path>`; a line without the
separator leaves the ref path `undefined` and the subsequent
`startsWith` read raises a `TypeError`.  Local refs (`refs/heads/...`)
keep the tracking name; anything else is treated as a remote ref
(`refs/remotes/<remote>/<name...>`) without further checking. -/
def buildBranchLine (sep : String) (st : PSt) (line : String) : Except ParseErr PSt :=
  let parts := jsSplit line sep
  match parts[1]? with
  | none => .error .refNameUndefined
  | some ref_name =>
    let tracking := (parts[0]?).getD ""
    if jsStartsWith ref_name "refs/heads/" then
      .ok (newBranch st (jsDrop 11 ref_name) none (some tracking)).2
    else
      let segs := jsSplit (jsDrop 13 ref_name) "/"
      let remote_name := (segs[0]?).getD ""
      .ok (newBranch st (jsJoin "/" (segs.drop 1)) (some remote_name) none).2

/-- Fold `buildBranchLine` over all branch lines. -/
def buildBranchLines (sep : String) : List String → PSt → Except ParseErr PSt
  | [], st => .ok st
  | line :: rest, st => do
    let st2 ← buildBranchLine sep st line
    buildBranchLines sep rest st2

/-- Build the initial registry: one branch per `branch_data` line, plus
the checkout pseudo-branch `HEAD`. -/
def buildBranches (branch_data sep : String) : Except ParseErr PSt := do
  let st ← buildBranchLines sep (jsSplit branch_data "\n") {}
  .ok (newBranch st "HEAD" none none).2

/-! ## Colors -/

/-- Modelled from the spec: the color palette of `colors.js` is not
under `src/`; the spec only requires a fixed read-only palette that
other branch names index by a stable hash.  No claim depends on the
palette entries. -/
def colors : List String :=
  ["#890b8f", "#0b8f8a", "#8f0b20", "#0b8f3a", "#8f6e0b", "#0b378f", "#8f0b77", "#4a8f0b"]

/-- Modelled from the spec: `String.prototype.hashCode` comes from the
globals module, which is not under `src/`; the spec only requires a
stable hash of the branch name, reduced modulo the palette size. -/
def hashCode (s : String) : Nat :=
  s.data.foldl (fun h c => (h * 31 + c.toNat) % 4294967296) 0

/-- The deterministic color of a branch: fixed colors for conventional
names, otherwise a palette entry indexed by the name hash. -/
def branchColor (name : String) : String :=
  if name = "master" ∨ name = "main" then "#ff3333"
  else if name = "development" ∨ name = "develop" ∨ name = "dev" then "#009000"
  else if name = "stage" ∨ name = "staging" ∨ name = "production" then "#d7d700"
  else (colors[hashCode name % colors.length]?).getD ""

/-- Assign every live branch its color (the loop runs over the registry,
so branches repaired out of it keep no color). -/
def assignColors (st : PSt) : PSt :=
  st.registry.foldl (fun st uid => storeModify st uid (fun b => { b with color := some (branchColor b.name) })) st

/-! ## Stash attachment and output -/

/-- Attach one stash line `<hash> <label>`: append a synthetic stash ref
to the first commit whose hash equals the first word exactly; with no
match the commit list is returned unchanged. -/
def attachStash (line : String) (cs : List Commit) : List Commit :=
  let parts := jsSplit line " "
  let h := (parts[0]?).getD ""
  let name := jsJoin " " (parts.drop 1)
  match cs.findIdx? (fun c => c.hash = h) with
  | some idx => listModify cs idx (fun c => { c with refs := c.refs ++ [GitRef.stash name name] })
  | none => cs

/-- A fully resolved ref in the output (the JS output mixes tag
objects, `Branch` objects and stash objects; this carries their common
observable fields plus the branch object for branch refs). -/
structure GitRefOut where
  id : String
  name : String
  rtype : String
  color : Option String
  branch : Option Branch
  deriving DecidableEq, Repr

/-- A fully resolved vis line in the output. -/
structure VisLineOut where
  x0 : Q
  xn : Q
  y0 : Option Q
  yn : Option Q
  xcs : Option Q
  ycs : Option Q
  xce : Option Q
  yce : Option Q
  branch : Option Branch
  deriving DecidableEq, Repr

/-- A fully resolved commit in the output. -/
structure CommitOut where
  i : Nat
  vis_lines : List VisLineOut
  branch : Option Branch
  hash_long : String
  hash : String
  author_name : String
  author_email : String
  datetime : String
  refs : List GitRefOut
  subject : String
  merge : Bool
  deriving DecidableEq, Repr

/-- The result of `parse`. -/
structure ParseOutput where
  commits : List CommitOut
  branches : List Branch
  deriving DecidableEq, Repr

/-- Resolve a processing ref against the final store (branch objects in
the JS output are the very registry objects, already colored). -/
def resolveRef (st : PSt) : GitRef → GitRefOut
  | .tag id name => { id, name, rtype := "tag", color := none, branch := none }
  | .br uid _ =>
    let b := branchOf st uid
    { id := b.id, name := b.name, rtype := "branch", color := b.color, branch := some b }
  | .stash id name => { id, name, rtype := "stash", color := some "#fff", branch := none }

/-- Resolve a vis line against the final store. -/
def resolveVisLine (st : PSt) (v : VisLine) : VisLineOut :=
  { x0 := v.x0, xn := v.xn, y0 := v.y0, yn := v.yn, xcs := v.xcs, ycs := v.ycs,
    xce := v.xce, yce := v.yce, branch := v.branch.map (branchOf st) }

/-- Resolve a commit against the final store. -/
def resolveCommit (st : PSt) (c : Commit) : CommitOut :=
  { i := c.i, vis_lines := c.vis_lines.map (resolveVisLine st),
    branch := c.branch.map (branchOf st), hash_long := c.hash_long, hash := c.hash,
    author_name := c.author_name, author_email := c.author_email,
    datetime := c.datetime, refs := c.refs.map (resolveRef st), subject := c.subject,
    merge := c.merge }

/-- The live branches of the final state, as branch objects. -/
def liveBranches (st : PSt) : List Branch :=
  st.registry.map (branchOf st)

/-- The final branch listing: live branches that are not inferred,
sorted with `git_ref_sort`, capped at 10000. -/
def outputBranches (st : PSt) : List Branch :=
  (jsSort branchLt ((liveBranches st).filter (fun b => !b.inferred))).take 10000

/-- Build the output from the final state: branch listing, stash
attachment, and resolution of every branch reference. -/
def buildOutput (st : PSt) (stash_data : String) : ParseOutput :=
  let commits := (jsSplit stash_data "\n").foldl (fun cs line => attachStash line cs) st.commits
  { commits := commits.map (resolveCommit st), branches := outputBranches st }

/-! ## The whole parser -/

/-- Run the parser, returning the final internal state together with
the output (the state is what the claims about in-processing invariants
are stated against). -/
def parseRun (log_data branch_data stash_data separator : String) (curve_radius : Q) :
    Except ParseErr (PSt × ParseOutput) := do
  let st0 ← buildBranches branch_data separator
  let st1 ← rowLoop separator curve_radius (withIdx 0 (jsSplit log_data "\n")) st0
  let st2 := assignColors st1
  .ok (st2, buildOutput st2 stash_data)

/-- The `parse` function of the source. -/
def parse (log_data branch_data stash_data separator : String) (curve_radius : Q) :
    Except ParseErr ParseOutput :=
  (parseRun log_data branch_data stash_data separator curve_radius).map (fun p => p.2)

/-! ## Concrete scenario inputs -/

/-- The separator used by all concrete scenarios. -/
def sepA : String := "\x01"

/-- Scenario A log data: one commit row. -/
def scenALog : String :=
  "* \x01aaaaaaa1234567\x01aaaaaaa\x01Alice\x01a@x.com\x012021-03-02 15:59:43 +0100\x01HEAD -> master\x01Initial commit"

/-- Scenario A branch data: one local branch `master`. -/
def scenABranch : String := "\x01refs/heads/master"

/-- The output of `parse` on Scenario A (defaulting to the empty output
if parsing failed; the scenario theorem proves it did not). -/
def scenAOut : ParseOutput :=
  ((parse scenALog scenABranch "" sepA (1/4)).toOption).getD ⟨[], []⟩

/-- Scenario B of the specification, literally: a row with glyph prefix
`| |/ ` immediately followed by a commit row whose subject is the
standard merge phrasing naming the branch feature, plus a preceding
commit row so that a commit exists that could be flagged. -/
def scenBLog : String :=
  "* \x01h0l\x01h0\x01A\x01a@x\x01d0\x01\x01subjectX\n| |/ \n* \x01h2l\x01h2\x01A\x01a@x\x01d2\x01\x01Merge branch \x27feature\x27"

/-- The final parser state and output on Scenario B. -/
def scenBRun : PSt × ParseOutput :=
  ((parseRun scenBLog scenABranch "" sepA (1/4)).toOption).getD ⟨{}, ⟨[], []⟩⟩

/-- A merge shape that actually reaches the merge-marker rule: the merge
commit row first, then a connector row whose backslash has a pipe
directly west of it. -/
def scenB2Log : String :=
  "*\x01h0l\x01h0\x01A\x01a@x\x01d0\x01HEAD -> master\x01Merge branch \x27feature\x27\n|\\"

/-- The final parser state and output on the corrected merge scenario. -/
def scenB2Run : PSt × ParseOutput :=
  ((parseRun scenB2Log scenABranch "" sepA (1/4)).toOption).getD ⟨{}, ⟨[], []⟩⟩

/-- A run in which retroactive identity repair fires between two
adjacent commits: the merge commit row, then a commit row carrying the
backslash of the merged branch, then a commit row whose tip names that
branch (`feature`) right below-right of the backslash. -/
def repairLog : String :=
  "*\x01h0l\x01h0\x01A\x01a@x\x01d0\x01HEAD -> master\x01Merge branch \x27feature\x27\n" ++
  "|\\\x01h1l\x01h1\x01A\x01a@x\x01d1\x01\x01commit one\n" ++
  "| *\x01h2l\x01h2\x01A\x01a@x\x01d2\x01feature\x01commit two"

/-- Branch data of the repair run: `master` and `feature`. -/
def repairBranch : String := "\x01refs/heads/master\n\x01refs/heads/feature"

/-- The output of the repair run. -/
def repairOut : ParseOutput :=
  ((parse repairLog repairBranch "" sepA (1/4)).toOption).getD ⟨[], []⟩

/-- The segments of commit `k` that belong to branch id `bid`. -/
def segsFor (out : ParseOutput) (k : Nat) (bid : String) : List VisLineOut :=
  ((out.commits[k]?).map (fun c =>
    c.vis_lines.filter (fun v => (v.branch.map Branch.id) = some bid))).getD []

/-- A run in which a synthesized inferred branch id collides with an
explicitly named branch: `branch_data` names `feature~2`, and the merge
marker of the commit with the feature merge subject synthesizes the id
`feature~2` again (registry size 3 at that moment). -/
def clashLog : String :=
  "*\x01h0l\x01h0\x01A\x01a@x\x01d0\x01\x01Merge branch \x27feature\x27\n|\\"

/-- Branch data of the id-collision run. -/
def clashBranch : String := "\x01refs/heads/feature~2"

/-- The final parser state of the id-collision run. -/
def clashSt : PSt :=
  (((parseRun clashLog clashBranch "" sepA (1/4)).toOption).getD ⟨{}, ⟨[], []⟩⟩).1

/-- The ids of the live registry branches, in registry order. -/
def regIds (st : PSt) : List String :=
  st.registry.map (fun uid => (branchOf st uid).id)

/-! ## Helper lemmas -/

theorem listModify_length (l : List α) (i : Nat) (f : α → α) :
    (listModify l i f).length = l.length := by
  induction l generalizing i with
  | nil => rfl
  | cons x xs ih =>
    cases i with
    | zero => rfl
    | succ n => simp [listModify, ih]

theorem listModify_get_self (l : List α) (i : Nat) (f : α → α) :
    (listModify l i f)[i]? = (l[i]?).map f := by
  induction l generalizing i with
  | nil => simp [listModify]
  | cons x xs ih =>
    cases i with
    | zero => simp [listModify]
    | succ n => simp only [listModify, List.getElem?_cons_succ]; exact ih n

theorem listModify_get_other (l : List α) (i j : Nat) (f : α → α) (h : i ≠ j) :
    (listModify l i f)[j]? = l[j]? := by
  induction l generalizing i j with
  | nil => rfl
  | cons x xs ih =>
    cases i with
    | zero => cases j with
      | zero => exact absurd rfl h
      | succ m => simp [listModify]
    | succ n => cases j with
      | zero => simp [listModify]
      | succ m =>
        have hnm : n ≠ m := fun hc => h (by simp [hc])
        simp only [listModify, List.getElem?_cons_succ]
        exact ih n m hnm

theorem fixDefaults_x0 (r : Q) (v : VisLine) : (fixDefaults r v).x0 = v.x0 := by
  simp only [fixDefaults]
  split_ifs <;> rfl

theorem fixDefaults_xn (r : Q) (v : VisLine) : (fixDefaults r v).xn = v.xn := by
  simp only [fixDefaults]
  split_ifs <;> rfl

/-! ## Claim C2 -/

/-- Claim C2 (amended): when a commit row is finalized and the branch
id has a densened segment both in this row and in the previous-commit
snapshot, then with r the curve radius the code computes
last_xce = last.x0 + (last.xn − last.x0)(1 − r),
xcs = this.x0 + (this.xn − this.x0) r and middle = (xcs + last_xce)/2,
and pins last.xn = middle, last.xce = last_xce, last.yce = 1 − r,
last.yn = 1, this.x0 = middle, this.xcs = xcs, this.ycs = r; hence a
pair of segments joined through this continuity step (same branch id
key at finalize time) has the previous segment end at yn = 1 exactly at
the x where this segment starts.  (The original final clause, which
asserted this junction equality for every two adjacent commits sharing
a branch, fails when retroactive repair repoints segments: see the
counterexample.) -/
theorem curve_continuity_pinned (r : Q) (lastd : List (String × VisLine × Nat))
    (lastLines : List VisLine) (key : String) (v lastCopy : VisLine) (pos : Nat)
    (hl : assocFind key lastd = some (lastCopy, pos)) (hp : pos < lastLines.length) :
    (curveEntry r lastd lastLines key v).1.x0 =
      ((v.x0 + (v.xn - v.x0) * r) + (lastCopy.x0 + (lastCopy.xn - lastCopy.x0) * (1 - r))) / 2 ∧
    (curveEntry r lastd lastLines key v).1.xcs = some (v.x0 + (v.xn - v.x0) * r) ∧
    (curveEntry r lastd lastLines key v).1.ycs = some r ∧
    ∃ lv, (curveEntry r lastd lastLines key v).2[pos]? = some lv ∧
      lv.xn = ((v.x0 + (v.xn - v.x0) * r) + (lastCopy.x0 + (lastCopy.xn - lastCopy.x0) * (1 - r))) / 2 ∧
      lv.xce = some (lastCopy.x0 + (lastCopy.xn - lastCopy.x0) * (1 - r)) ∧
      lv.yce = some (1 - r) ∧
      lv.yn = some 1 ∧
      lv.xn = (curveEntry r lastd lastLines key v).1.x0 := by
  have hx0 := fixDefaults_x0 r v
  have hxn := fixDefaults_xn r v
  have hlv0 : lastLines[pos]? = some lastLines[pos] := List.getElem?_eq_getElem hp
  have hres : curveEntry r lastd lastLines key v =
      ({ fixDefaults r v with
          x0 := ((v.x0 + (v.xn - v.x0) * r) + (lastCopy.x0 + (lastCopy.xn - lastCopy.x0) * (1 - r))) / 2,
          xcs := some (v.x0 + (v.xn - v.x0) * r), ycs := some r },
        listModify lastLines pos (fun lv =>
          { lv with
            xn := ((v.x0 + (v.xn - v.x0) * r) + (lastCopy.x0 + (lastCopy.xn - lastCopy.x0) * (1 - r))) / 2,
            xce := some (lastCopy.x0 + (lastCopy.xn - lastCopy.x0) * (1 - r)),
            yce := some (1 - r), yn := some 1 })) := by
    simp [curveEntry, hl, hx0, hxn]
  rw [hres]
  refine ⟨rfl, rfl, rfl,
    ⟨{ lastLines[pos] with
        xn := ((v.x0 + (v.xn - v.x0) * r) + (lastCopy.x0 + (lastCopy.xn - lastCopy.x0) * (1 - r))) / 2,
        xce := some (lastCopy.x0 + (lastCopy.xn - lastCopy.x0) * (1 - r)),
        yce := some (1 - r), yn := some 1 }, ?_, rfl, rfl, rfl, rfl, rfl⟩⟩
  rw [listModify_get_self, hlv0]
  rfl

/-- Witness for `curve_continuity_pinned` at a concrete state. -/
theorem curve_continuity_pinned_witness :
    (curveEntry (1/4) [("m", { x0 := 0, xn := 1 : VisLine }, 0)]
        [{ x0 := 0, xn := 1 : VisLine }] "m" { x0 := 1, xn := 1 }).1.x0 =
      (((1 : Q) + ((1 : Q) - 1) * (1/4)) + ((0 : Q) + ((1 : Q) - 0) * (1 - 1/4))) / 2 ∧
    (curveEntry (1/4) [("m", { x0 := 0, xn := 1 : VisLine }, 0)]
        [{ x0 := 0, xn := 1 : VisLine }] "m" { x0 := 1, xn := 1 }).1.xcs =
      some ((1 : Q) + ((1 : Q) - 1) * (1/4)) := by
  have h := curve_continuity_pinned (1/4) [("m", { x0 := 0, xn := 1 : VisLine }, 0)]
    [{ x0 := 0, xn := 1 : VisLine }] "m" { x0 := 1, xn := 1 } { x0 := 0, xn := 1 } 0
    (by decide) (by decide)
  exact ⟨h.1, h.2.1⟩

/-- Claim C2 counterexample: on the repair run, commits 1 and 2 are
chronologically adjacent and both carry a segment of branch `feature`
(the one in commit 1 via retroactive repointing), but the junction
equality fails in both directions: commit 1 ends its feature segment
at xn = 2 (with yn = 1) while commit 2 starts its segment at x0 = 5/2
(with y0 = 1/2, not 0), and commit 2 ends at 5/2 while commit 1 starts
at 1/2. -/
theorem segment_continuity_broken_by_repair :
    (parse repairLog repairBranch "" sepA (1/4)).toOption = some repairOut ∧
    (segsFor repairOut 1 "feature").length = 1 ∧
    (segsFor repairOut 2 "feature").length = 1 ∧
    (segsFor repairOut 1 "feature").map VisLineOut.xn = [2] ∧
    (segsFor repairOut 1 "feature").map VisLineOut.yn = [some 1] ∧
    (segsFor repairOut 1 "feature").map VisLineOut.x0 = [1/2] ∧
    (segsFor repairOut 2 "feature").map VisLineOut.x0 = [5/2] ∧
    (segsFor repairOut 2 "feature").map VisLineOut.xn = [5/2] ∧
    (segsFor repairOut 2 "feature").map VisLineOut.y0 = [some (1/2)] ∧
    (2 : Q) < 5/2 ∧ (1/2 : Q) < 5/2 := by
  decide

/-! ## Claim C1 -/

/-- Claim C1: on the Scenario A input (one commit row, branch data
naming `master`, separator `\x01`, curve radius 1/4), `parse` returns
exactly one commit with hash `aaaaaaa` whose branch is named `master`,
whose vis lines are exactly one line with x0 = 1/2, xn = 1/2,
y0 = 1/2, and a branch listing containing `master` with color
`#ff3333` and the `HEAD` checkout pseudo-branch. -/
theorem scenarioA_parse :
    (parse scenALog scenABranch "" sepA (1/4)).toOption = some scenAOut ∧
    scenAOut.commits.length = 1 ∧
    scenAOut.commits.map CommitOut.hash = ["aaaaaaa"] ∧
    scenAOut.commits.map (fun c => c.branch.map Branch.name) = [some "master"] ∧
    scenAOut.commits.map (fun c => c.vis_lines.map (fun v => (v.x0, v.xn, v.y0))) =
      [[(1/2, 1/2, some (1/2))]] ∧
    scenAOut.commits.map (fun c => c.vis_lines.map (fun v => v.branch.map Branch.name)) =
      [[some "master"]] ∧
    (scenAOut.branches.filter (fun b => b.name = "master")).map Branch.color =
      [some "#ff3333"] ∧
    (scenAOut.branches.filter (fun b => b.name = "HEAD")).length = 1 := by
  decide

/-! ## Claim C4: counterexample -/

/-- Claim C4 counterexample: on the literal Scenario B input (a row
with glyph prefix `| |/ ` immediately followed by a commit row whose
subject is the feature merge phrasing, preceded by an ordinary commit
row), no commit is flagged as a merge and no branch whose name even
contains `feature` is ever created — the merge-marker rule only fires
on a backslash cell with a pipe directly west of it, and this input
contains no backslash. -/
theorem scenarioB_literal_no_merge :
    (parseRun scenBLog scenABranch "" sepA (1/4)).toOption = some scenBRun ∧
    scenBRun.2.commits.length = 2 ∧
    scenBRun.2.commits.map CommitOut.merge = [false, false] ∧
    scenBRun.1.commits.map Commit.merge = [false, false] ∧
    scenBRun.1.store.map (fun b => hasSub "feature".data b.name.data) =
      [false, false, false] := by
  decide

/-! ## Claim C5: counterexample -/

/-- Claim C5 counterexample: with branch data naming a real branch
`feature~2` and a merge commit whose subject names `feature`, the
synthesized inferred branch receives the counter-suffixed id
`feature~2` as well (registry size 3 at synthesis), so two live
branches of the registry share an id — both at the moment of creation
and in the final state exhibited here. -/
theorem branch_id_collision :
    (parseRun clashLog clashBranch "" sepA (1/4)).toOption.map (fun p => p.1) = some clashSt ∧
    regIds clashSt = ["feature~2", "HEAD", "inferred~1", "feature~2"] ∧
    (regIds clashSt).count "feature~2" = 2 := by
  decide

/-! ## Claim C6 -/

/-- Claim C6 (code bug): the comparator `git_ref_sort` orders tag refs
strictly before branch refs, because branch ids (such as `master`) do
not start with `refs/`, so the first key is 1 for branches and tags
alike and the second key then prefers tags; this contradicts both the
claim and the comment in the source (prefer branch over tag/stash).
Ties among non-tags are broken by the position of the first slash, not
by the number of separators: `aa/b` (one separator, slash at 2) sorts
after `a/b/c` (two separators, slash at 1).  Shown on the resolved
refs of a real registry and on the comparator itself. -/
theorem ref_sort_tags_before_branches :
    gitRefSortIds "tag: v1" "master" = -1 ∧
    jsSort refLt [GitRef.br 0 "master", GitRef.tag "tag: v1" "v1"] =
      [GitRef.tag "tag: v1" "v1", GitRef.br 0 "master"] ∧
    ((buildBranches scenABranch sepA).toOption.map (fun st =>
        (resolveRefs st "master, tag: v1").map refSortId)) =
      some ["tag: v1", "master"] ∧
    gitRefSortIds "aa/b" "a/b/c" = 1 := by
  decide

/-! ## Claim C3 -/

theorem hasWrong_repointLines (wrong tip : Nat) (ls : List VisLine) (h : wrong ≠ tip) :
    hasWrong wrong (repointLines wrong tip ls) = false := by
  simp only [hasWrong, repointLines, List.any_map, List.any_eq_false, Function.comp]
  intro v _
  by_cases hv : v.branch = some wrong <;> simp [hv, h, Ne.symm h]

/-- The backward scan `repairFrom`, characterized: some number `b` of
commits counted down from index `f - 1` are exactly the repointed ones
(each of which did reference the wrong branch), everything below the
scanned block and at `f` and above is untouched, and when the scan
stopped early the commit right below the block has no reference. -/
theorem repairFrom_spec (wrong tip : Nat) :
    ∀ (f : Nat) (cs : List Commit), f ≤ cs.length →
    ∃ b ≤ f,
      (repairFrom wrong tip f cs).length = cs.length ∧
      (∀ k, k < f - b → (repairFrom wrong tip f cs)[k]? = cs[k]?) ∧
      (∀ k, f - b ≤ k → k < f →
        (repairFrom wrong tip f cs)[k]? = (cs[k]?).map (repointCommit wrong tip) ∧
        ∃ c, cs[k]? = some c ∧ hasWrong wrong c.vis_lines = true) ∧
      (b < f → ∃ c, cs[f - b - 1]? = some c ∧ hasWrong wrong c.vis_lines = false) ∧
      (∀ k, f ≤ k → (repairFrom wrong tip f cs)[k]? = cs[k]?) := by
  intro f
  induction f with
  | zero =>
    intro cs _
    exact ⟨0, Nat.le_refl 0, rfl, fun k hk => by omega, fun k hk1 hk2 => by omega,
      fun hb => by omega, fun k _ => rfl⟩
  | succ n ih =>
    intro cs hf
    have hn : n < cs.length := by omega
    have hc : cs[n]? = some cs[n] := List.getElem?_eq_getElem hn
    cases hw : hasWrong wrong (cs[n]).vis_lines with
    | false =>
      have hres : repairFrom wrong tip (n + 1) cs = cs := by
        simp [repairFrom, hc, hw]
      refine ⟨0, by omega, by rw [hres], fun k _ => by rw [hres], fun k hk1 hk2 => by omega,
        fun _ => ?_, fun k _ => by rw [hres]⟩
      have hidx : n + 1 - 0 - 1 = n := by omega
      rw [hidx]
      exact ⟨cs[n], hc, hw⟩
    | true =>
      have hres : repairFrom wrong tip (n + 1) cs =
          repairFrom wrong tip n (listModify cs n (repointCommit wrong tip)) := by
        simp [repairFrom, hc, hw]
      have hlen' : (listModify cs n (repointCommit wrong tip)).length = cs.length :=
        listModify_length cs n _
      obtain ⟨b', hb', hRlen, hlow, hmid, hstop, hhigh⟩ :=
        ih (listModify cs n (repointCommit wrong tip)) (by omega)
      refine ⟨b' + 1, by omega, ?_, ?_, ?_, ?_, ?_⟩
      · rw [hres, hRlen, hlen']
      · intro k hk
        have hk' : k < n - b' := by omega
        rw [hres, hlow k hk']
        exact listModify_get_other cs n k _ (by omega)
      · intro k hk1 hk2
        by_cases hkn : k = n
        · subst hkn
          constructor
          · rw [hres, hhigh k (Nat.le_refl k)]
            exact listModify_get_self cs k _
          · exact ⟨cs[k], hc, hw⟩
        · have hklt : k < n := by omega
          have hk1' : n - b' ≤ k := by omega
          obtain ⟨hmap, c', hc', hw'⟩ := hmid k hk1' hklt
          have hother : (listModify cs n (repointCommit wrong tip))[k]? = cs[k]? :=
            listModify_get_other cs n k _ (Ne.symm hkn)
          constructor
          · rw [hres, hmap, hother]
          · exact ⟨c', by rw [← hother]; exact hc', hw'⟩
      · intro hb
        have hb'' : b' < n := by omega
        obtain ⟨c', hc', hw'⟩ := hstop hb''
        have hidx : n + 1 - (b' + 1) - 1 = n - b' - 1 := by omega
        rw [hidx]
        have hother : (listModify cs n (repointCommit wrong tip))[n - b' - 1]? = cs[n - b' - 1]? :=
          listModify_get_other cs n (n - b' - 1) _ (by omega)
        exact ⟨c', by rw [← hother]; exact hc', hw'⟩
      · intro k hk
        rw [hres, hhigh k (by omega)]
        exact listModify_get_other cs n k _ (by omega)

/-- Claim C3: when a commit glyph resolves through the branch-tip rule
and the cell diagonally above-left was a backslash owned by an inferred
branch `wrong`, the repair action scans the produced commits backward
from the most recent one: every scanned commit had lines referencing
`wrong` and has them all repointed to the authoritative branch `tip`
(afterwards no scanned line references `wrong`), the scan stops at the
first commit without such a reference (everything below it, and the
rest of each commit, is untouched), and `wrong` is removed from the
branch registry. -/
theorem repair_scan_spec (wrong tip : Nat) (st : PSt)
    (hcount : st.registry.count wrong = 1) (hne : wrong ≠ tip) :
    ∃ b ≤ st.commits.length,
      (applyRepair wrong tip st).commits.length = st.commits.length ∧
      (∀ k, k < st.commits.length - b →
        (applyRepair wrong tip st).commits[k]? = st.commits[k]?) ∧
      (∀ k, st.commits.length - b ≤ k → k < st.commits.length →
        (applyRepair wrong tip st).commits[k]? = (st.commits[k]?).map (repointCommit wrong tip) ∧
        (∃ c, st.commits[k]? = some c ∧ hasWrong wrong c.vis_lines = true) ∧
        (∀ c, (applyRepair wrong tip st).commits[k]? = some c →
          hasWrong wrong c.vis_lines = false)) ∧
      (b < st.commits.length →
        ∃ c, st.commits[st.commits.length - b - 1]? = some c ∧
          hasWrong wrong c.vis_lines = false) ∧
      wrong ∉ (applyRepair wrong tip st).registry := by
  unfold applyRepair
  obtain ⟨b, hb, hlen, hlow, hmid, hstop, _⟩ :=
    repairFrom_spec wrong tip st.commits.length st.commits (Nat.le_refl _)
  have hreg : wrong ∉ spliceRemove st.registry wrong := by
    have hmem : wrong ∈ st.registry := by
      have : st.registry.count wrong ≠ 0 := by omega
      exact List.count_pos_iff.mp (by omega)
    have hcontains : st.registry.contains wrong = true := by
      simpa [List.elem_iff] using hmem
    simp only [spliceRemove, hcontains, if_pos]
    intro hmem'
    have := List.count_erase_self wrong st.registry
    have hpos := List.count_pos_iff.mpr hmem'
    omega
  refine ⟨b, hb, hlen, hlow, ?_, hstop, hreg⟩
  intro k hk1 hk2
  obtain ⟨hmap, hex⟩ := hmid k hk1 hk2
  refine ⟨hmap, hex, ?_⟩
  intro c hc
  rw [hmap] at hc
  obtain ⟨c0, hc0, _⟩ := hex
  rw [hc0] at hc
  simp only [Option.map_some'] at hc
  injection hc with hc2
  rw [← hc2]
  exact hasWrong_repointLines wrong tip c0.vis_lines hne

/-- Witness for `repair_scan_spec` at a concrete state. -/
theorem repair_scan_spec_witness :
    ((applyRepair 0 1 { registry := [0, 1] }).registry.count 0) = 0 := by
  obtain ⟨b, _, _, _, _, _, hreg⟩ :=
    repair_scan_spec 0 1 { registry := [0, 1] } (by decide) (by decide)
  exact List.count_eq_zero.mpr hreg

/-! ## Claim C4 -/

theorem splitListF_ne_nil (s0 : Char) (srest : List Char) (f : Nat) (l : List Char) :
    splitListF s0 srest f l ≠ [] := by
  cases f with
  | zero => cases l <;> simp [splitListF]
  | succ n =>
    cases l with
    | nil => simp [splitListF]
    | cons c rest =>
      simp only [splitListF]
      split
      · simp
      · split <;> simp

theorem splitListF_nosep (s0 : Char) :
    ∀ (l : List Char) (f : Nat), l.length ≤ f → (∀ c ∈ l, c ≠ s0) →
    splitListF s0 [] f l = [l] := by
  intro l
  induction l with
  | nil => intro f _ _; cases f <;> rfl
  | cons c rest ih =>
    intro f hf h
    cases f with
    | zero => simp at hf
    | succ n =>
      have hc : ¬ ([s0].isPrefixOf (c :: rest) = true) := by
        simp [List.isPrefixOf]
        exact fun hcc => (h c (by simp) hcc.symm).elim
      simp only [splitListF, hc, if_false]
      rw [ih n (by simp at hf; omega) (fun d hd => h d (by simp [hd]))]
      simp

theorem splitListF_append_suffix (s0 : Char) (l2 : List Char) (h2 : ∀ c ∈ l2, c ≠ s0) :
    ∀ (l1 : List Char) (f : Nat), l1.length + l2.length ≤ f →
    ∃ A lastS, splitListF s0 [] f (l1 ++ l2) = A ++ [lastS ++ l2] := by
  intro l1
  induction l1 with
  | nil =>
    intro f hf
    exact ⟨[], [], by simpa using splitListF_nosep s0 l2 f (by simpa using hf) h2⟩
  | cons c rest ih =>
    intro f hf
    cases f with
    | zero => simp at hf
    | succ n =>
      obtain ⟨A, lastS, hA⟩ := ih n (by simp at hf ⊢; omega)
      by_cases hc : s0 = c
      · have hpre : [s0].isPrefixOf (c :: (rest ++ l2)) = true := by
          simp [List.isPrefixOf, hc]
        refine ⟨[] :: A, lastS, ?_⟩
        simp only [List.cons_append, splitListF, List.append_eq, hpre, if_true]
        simp only [List.length_nil, List.drop_succ_cons, List.drop_zero]
        rw [hA]
      · have hpre : ¬ ([s0].isPrefixOf (c :: (rest ++ l2)) = true) := by
          simp [List.isPrefixOf]
          exact fun hcc => (hc hcc).elim
        simp only [List.cons_append, splitListF, List.append_eq, hpre, if_false]
        rw [hA]
        cases A with
        | nil => exact ⟨[], c :: lastS, by simp⟩
        | cons a as => exact ⟨(c :: a) :: as, lastS, by simp⟩

theorem listModify_append_self (A : List α) (b : α) (f : α → α) :
    listModify (A ++ [b]) A.length f = A ++ [f b] := by
  induction A with
  | nil => rfl
  | cons x xs ih => simp [listModify, ih]

theorem getLast?_listModify_last (l : List α) (f : α → α) :
    (listModify l (l.length - 1) f).getLast? = (l.getLast?).map f := by
  rw [List.getLast?_eq_getElem?, List.getLast?_eq_getElem?, listModify_length,
    listModify_get_self]

theorem natDigits_chars (f n : Nat) (c : Char) (h : c ∈ natDigits f n) :
    ∃ d, d < 10 ∧ c = Char.ofNat (48 + d) := by
  induction f generalizing n with
  | zero => simp [natDigits] at h
  | succ m ih =>
    simp only [natDigits] at h
    by_cases hn : n < 10
    · rw [if_pos hn] at h
      simp at h
      exact ⟨n, hn, h⟩
    · rw [if_neg hn] at h
      rcases List.mem_append.mp h with h1 | h1
      · exact ih (n / 10) h1
      · simp at h1
        exact ⟨n % 10, Nat.mod_lt n (by omega), h1⟩

theorem digitChar_ne_slash (d : Nat) (hd : d < 10) : Char.ofNat (48 + d) ≠ '/' := by
  interval_cases d <;> decide

theorem intStr_no_slash (i : Int) (c : Char) (h : c ∈ (intStr i).data) : c ≠ '/' := by
  cases i with
  | ofNat n =>
    obtain ⟨d, hd, hc⟩ := natDigits_chars (n + 1) n c h
    rw [hc]
    exact digitChar_ne_slash d hd
  | negSucc n =>
    simp only [intStr] at h
    rcases List.mem_cons.mp h with h1 | h1
    · rw [h1]; decide
    · obtain ⟨d, hd, hc⟩ := natDigits_chars (n + 2) (n + 1) c h1
      rw [hc]
      exact digitChar_ne_slash d hd

theorem tilde_suffix_no_slash (i : Int) (c : Char)
    (h : c ∈ ("~" ++ intStr i).data) : c ≠ '/' := by
  have hd : ("~" ++ intStr i).data = '~' :: (intStr i).data := rfl
  rw [hd] at h
  rcases List.mem_cons.mp h with h1 | h1
  · rw [h1]; decide
  · exact intStr_no_slash i c h1

/-- The last path segment of the counter-suffixed synthetic id carries
the counter suffix: splitting `cap ++ suffix` on `/` (with a slash-free
`suffix`) ends in a group that ends in `suffix`. -/
theorem jsSplit_suffix (cap suffix : String) (hs : ∀ c ∈ suffix.data, c ≠ '/') :
    ∃ pre, ((jsSplit (cap ++ suffix) "/").getLast?).getD "" = pre ++ suffix := by
  obtain ⟨A, lastS, hA⟩ := splitListF_append_suffix '/' suffix.data hs cap.data
    (cap.data ++ suffix.data).length (by simp)
  refine ⟨String.mk lastS, ?_⟩
  have hdata : (cap ++ suffix).data = cap.data ++ suffix.data := rfl
  show ((((splitList '/' [] (cap ++ suffix).data).map String.mk).getLast?).getD "") = _
  rw [hdata]
  show ((((splitListF '/' [] (cap.data ++ suffix.data).length
      (cap.data ++ suffix.data)).map String.mk).getLast?).getD "") = _
  rw [hA, List.map_append]
  simp only [List.map_cons, List.map_nil, List.getLast?_concat, Option.getD_some]
  rfl

/-- Core of the merge-marker rule: a backslash cell whose west same-row
cell is a pipe (and whose east cell is not a pipe) flags the most
recently produced commit as a merge and registers a fresh inferred
branch, named from the just-closed commit subject when the merge
phrasing matches, else anonymously. -/
theorem merge_marker_core (st : PSt) :
    ∃ uid st2, mergeMarker st = (some uid, st2) ∧
      uid = st.store.length ∧
      st2.registry = st.registry ++ [uid] ∧
      st2.commits = listModify st.commits (st.commits.length - 1)
        (fun c => { c with merge := true }) ∧
      st2.store.length = st.store.length + 1 ∧
      (∀ u, u < st.store.length → branchOf st2 u = branchOf st u) ∧
      (branchOf st2 uid).inferred = true ∧
      (∀ c0 cap, st.commits.getLast? = some c0 → matchMergeSubject c0.subject = some cap →
        (branchOf st2 uid).name =
          ((jsSplit (cap ++ "~" ++ intStr (regCounter st)) "/").getLast?).getD "" ∧
        (branchOf st2 uid).remote_name =
          some (jsJoin "/" ((jsSplit (cap ++ "~" ++ intStr (regCounter st)) "/").dropLast)) ∧
        (∃ pre, (branchOf st2 uid).name = pre ++ ("~" ++ intStr (regCounter st)))) ∧
      ((∀ c0, st.commits.getLast? = some c0 → matchMergeSubject c0.subject = none) →
        st.commits ≠ [] →
        (branchOf st2 uid).name = "~" ++ intStr (regCounter st) ∧
        (branchOf st2 uid).id = "~" ++ intStr (regCounter st)) ∧
      (st.commits = [] →
        (branchOf st2 uid).name = "~" ++ intStr (regCounter st) ∧
        (branchOf st2 uid).id = "~" ++ intStr (regCounter st)) := by
  cases hlast : st.commits.getLast? with
  | none =>
    have hcs : st.commits = [] := by
      cases hc2 : st.commits with
      | nil => rfl
      | cons a l => rw [hc2] at hlast; simp at hlast
    have hmm : mergeMarker st =
        (some st.store.length,
          { st with
            store := st.store ++
              [{ name := "~" ++ intStr (regCounter st), id := "~" ++ intStr (regCounter st),
                 inferred := true }],
            registry := st.registry ++ [st.store.length] }) := by
      simp only [mergeMarker, hlast, newBranch, nbId, storeModify, regCounter,
        listModify_append_self]
    refine ⟨st.store.length, _, hmm, rfl, rfl, ?_, by simp, ?_, ?_, ?_, ?_, ?_⟩
    · rw [hcs]; rfl
    · intro u hu
      simp only [branchOf]
      rw [List.getElem?_append_left hu]
    · simp only [branchOf, List.getElem?_concat_length]
      rfl
    · intro c0 cap hc0 _
      exact Option.noConfusion hc0
    · intro _ _
      constructor <;>
        simp only [branchOf, List.getElem?_concat_length, Option.getD_some]
    · intro _
      constructor <;>
        simp only [branchOf, List.getElem?_concat_length, Option.getD_some]
  | some c0 =>
    have hflag : (listModify st.commits (st.commits.length - 1)
        (fun c => { c with merge := true })).getLast? = some { c0 with merge := true } := by
      rw [getLast?_listModify_last, hlast]
      rfl
    cases hm : matchMergeSubject c0.subject with
    | none =>
      have hmm : mergeMarker st =
          (some st.store.length,
            { st with
              commits := listModify st.commits (st.commits.length - 1)
                (fun c => { c with merge := true }),
              store := st.store ++
                [{ name := "~" ++ intStr (regCounter st), id := "~" ++ intStr (regCounter st),
                   inferred := true }],
              registry := st.registry ++ [st.store.length] }) := by
        simp only [mergeMarker, hlast, hflag, newBranch, nbId, storeModify, hm, regCounter,
          listModify_append_self]
      refine ⟨st.store.length, _, hmm, rfl, rfl, rfl, by simp, ?_, ?_, ?_, ?_, ?_⟩
      · intro u hu
        simp only [branchOf]
        rw [List.getElem?_append_left hu]
      · simp only [branchOf, List.getElem?_concat_length]
        rfl
      · intro c1 cap hc1 hm1
        injection hc1 with he
        rw [← he, hm] at hm1
        exact Option.noConfusion hm1
      · intro _ _
        constructor <;>
          simp only [branchOf, List.getElem?_concat_length, Option.getD_some]
      · intro hempty
        simp [hempty] at hlast
    | some cap =>
      have hne : (jsSplit (cap ++ "~" ++ intStr (regCounter st)) "/").length ≠ 0 := by
        intro hlen
        have : jsSplit (cap ++ "~" ++ intStr (regCounter st)) "/" = [] :=
          List.length_eq_zero.mp hlen
        exact splitListF_ne_nil '/' [] _ _ (by
          have hj : jsSplit (cap ++ "~" ++ intStr (regCounter st)) "/" =
              (splitList '/' [] (cap ++ "~" ++ intStr (regCounter st)).data).map String.mk := rfl
          rw [hj] at this
          exact List.map_eq_nil_iff.mp this)
      have hmm : mergeMarker st =
          (some st.store.length,
            { st with
              commits := listModify st.commits (st.commits.length - 1)
                (fun c => { c with merge := true }),
              store := st.store ++
                [{ name := (((jsSplit (cap ++ "~" ++ intStr (regCounter st)) "/").getLast?).getD ""),
                   remote_name :=
                     some (jsJoin "/" ((jsSplit (cap ++ "~" ++ intStr (regCounter st)) "/").dropLast)),
                   id := (if (jsJoin "/" ((jsSplit (cap ++ "~" ++ intStr (regCounter st)) "/").dropLast)) = ""
                     then (((jsSplit (cap ++ "~" ++ intStr (regCounter st)) "/").getLast?).getD "")
                     else (jsJoin "/" ((jsSplit (cap ++ "~" ++ intStr (regCounter st)) "/").dropLast)) ++ "/" ++
                       (((jsSplit (cap ++ "~" ++ intStr (regCounter st)) "/").getLast?).getD "")),
                   inferred := true }],
              registry := st.registry ++ [st.store.length] }) := by
        have hne2 : ((jsSplit (cap ++ "~" ++
            intStr ((st.registry.length : Int) - 1)) "/").length = 0) = False := by
          simp only [regCounter] at hne
          exact eq_false hne
        simp only [mergeMarker, hlast, hflag, hm, newBranch, nbId, storeModify, regCounter,
          ne_eq, hne2, not_false_eq_true, if_true, ite_true, listModify_append_self]
      refine ⟨st.store.length, _, hmm, rfl, rfl, rfl, by simp, ?_, ?_, ?_, ?_, ?_⟩
      · intro u hu
        simp only [branchOf]
        rw [List.getElem?_append_left hu]
      · simp only [branchOf, List.getElem?_concat_length]
        rfl
      · intro c1 cap1 hc1 hm1
        injection hc1 with he
        rw [← he, hm] at hm1
        injection hm1 with he2
        subst he2
        refine ⟨?_, ?_, ?_⟩
        · simp only [branchOf, List.getElem?_concat_length, Option.getD_some]
        · simp only [branchOf, List.getElem?_concat_length, Option.getD_some]
        · simp only [branchOf, List.getElem?_concat_length, Option.getD_some]
          rw [String.append_assoc]
          exact jsSplit_suffix cap ("~" ++ intStr (regCounter st))
            (tilde_suffix_no_slash (regCounter st))
      · intro hall _
        have hnone := hall c0 rfl
        exact Option.noConfusion (hnone.symm.trans hm)
      · intro hempty
        simp [hempty] at hlast

/-- Claim C4 (amended): when the analyzer processes a backslash cell
whose same-row west cell is a pipe and whose same-row east cell is not
a pipe, the most recently produced commit (when one exists) is flagged
`merge = true`, and a fresh Branch flagged `inferred = true` is created
and registered, named from the just-closed commit subject when it
matches one of the merge phrasings (name and remote prefix taken from
the path segments of the capture, the synthesized name carrying the
registry-size-derived counter suffix), anonymous (`~counter`)
otherwise.  The spec Scenario B (prefix `| |/ ` ABOVE the merge-subject
commit row) never reaches this rule — see the counterexample; what does
reach it is a backslash row immediately BELOW the merge commit row, as
in `scenB2Log`, for which the merge commit is flagged and an inferred
branch `feature~1` is created. -/
theorem merge_marker_spec :
    (∀ (tip : Option Nat) (vis_chars : List Char) (i : Nat) (st : PSt) (vis_acc : List Cell),
      atInt vis_chars ((i : Int) - 1) = some '|' →
      (∀ e, vis_acc[0]? = some e → e.char ≠ '|') →
      ∃ uid st2, resolveCell tip vis_chars i '\\' st vis_acc = .ok (some uid, st2) ∧
        uid = st.store.length ∧
        st2.registry = st.registry ++ [uid] ∧
        st2.commits = listModify st.commits (st.commits.length - 1)
          (fun c => { c with merge := true }) ∧
        st2.store.length = st.store.length + 1 ∧
        (∀ u, u < st.store.length → branchOf st2 u = branchOf st u) ∧
        (branchOf st2 uid).inferred = true ∧
        (∀ c0 cap, st.commits.getLast? = some c0 → matchMergeSubject c0.subject = some cap →
          (branchOf st2 uid).name =
            ((jsSplit (cap ++ "~" ++ intStr (regCounter st)) "/").getLast?).getD "" ∧
          (branchOf st2 uid).remote_name =
            some (jsJoin "/" ((jsSplit (cap ++ "~" ++ intStr (regCounter st)) "/").dropLast)) ∧
          (∃ pre, (branchOf st2 uid).name = pre ++ ("~" ++ intStr (regCounter st)))) ∧
        ((∀ c0, st.commits.getLast? = some c0 → matchMergeSubject c0.subject = none) →
          st.commits ≠ [] →
          (branchOf st2 uid).name = "~" ++ intStr (regCounter st) ∧
          (branchOf st2 uid).id = "~" ++ intStr (regCounter st)) ∧
        (st.commits = [] →
          (branchOf st2 uid).name = "~" ++ intStr (regCounter st) ∧
          (branchOf st2 uid).id = "~" ++ intStr (regCounter st))) ∧
    (parseRun scenB2Log scenABranch "" sepA (1/4)).toOption = some scenB2Run ∧
    scenB2Run.2.commits.length = 1 ∧
    scenB2Run.2.commits.map CommitOut.merge = [true] ∧
    (scenB2Run.1.store.filter (fun b => b.inferred && b.name == "feature~1")).length = 1 := by
  constructor
  · intro tip vis_chars i st vis_acc hw he
    have hcell : resolveCell tip vis_chars i '\\' st vis_acc = .ok (mergeMarker st) := by
      cases hve : vis_acc[0]? with
      | none => simp only [resolveCell, hve, hw]; rfl
      | some e =>
        have hchar : (e.char = '|') = False := eq_false (he e hve)
        simp only [resolveCell, hve, hw, hchar, Option.any_some, decide_False,
          Bool.false_eq_true, if_false, if_true, ite_true, ite_false]
    obtain ⟨uid, st2, hpair, rest⟩ := merge_marker_core st
    refine ⟨uid, st2, ?_, rest⟩
    rw [hcell, hpair]
  · exact ⟨by decide, by decide, by decide, by decide⟩

/-- The concrete cell result used by `merge_marker_spec_witness`: a
backslash at column 1 with a pipe at column 0 and nothing to the east,
in the empty state. -/
def mmWitnessRes : Option Nat × PSt :=
  ((resolveCell none ['|', '\\'] 1 '\\' ({} : PSt) []).toOption).getD (none, {})

/-- Witness for the universal part of `merge_marker_spec` at a concrete
cell. -/
theorem merge_marker_spec_witness :
    resolveCell none ['|', '\\'] 1 '\\' ({} : PSt) [] = Except.ok mmWitnessRes ∧
    mmWitnessRes.1 = some 0 ∧
    (branchOf mmWitnessRes.2 0).inferred = true ∧
    (branchOf mmWitnessRes.2 0).name = "~" ++ intStr (regCounter ({} : PSt)) := by
  obtain ⟨uid, st2, h1, h2, _, _, _, _, h7, _, _, h10⟩ :=
    merge_marker_spec.1 none ['|', '\\'] 1 ({} : PSt) [] (by decide) (fun e he => by simp at he)
  obtain ⟨hn, _⟩ := h10 rfl
  have hu : uid = 0 := h2
  subst hu
  have hres : mmWitnessRes = (some 0, st2) := by
    simp [mmWitnessRes, h1, Except.toOption]
  refine ⟨by rw [hres]; exact h1, by rw [hres], ?_, ?_⟩
  · rw [hres]
    exact h7
  · rw [hres]
    exact hn

/-! ## Claim C5: amended theorem -/

/-- The id one `branch_data` line contributes, when it has a separator
(`none` when the line would make `parse` die, see claim C10). -/
def branchLineId (sep : String) (line : String) : Option String :=
  let parts := jsSplit line sep
  match parts[1]? with
  | none => none
  | some ref_name =>
    if jsStartsWith ref_name "refs/heads/" then some (jsDrop 11 ref_name)
    else
      let segs := jsSplit (jsDrop 13 ref_name) "/"
      some (nbId (jsJoin "/" (segs.drop 1)) (some ((segs[0]?).getD "")))

/-- Registry uids always index into the store. -/
def regWF (st : PSt) : Prop := ∀ uid ∈ st.registry, uid < st.store.length

theorem regWF_newBranch (st : PSt) (n : String) (r t : Option String) (h : regWF st) :
    regWF (newBranch st n r t).2 := by
  intro uid hu
  simp only [newBranch] at hu ⊢
  simp only [List.length_append, List.length_cons, List.length_nil]
  rcases List.mem_append.mp hu with h1 | h1
  · have := h uid h1
    omega
  · simp at h1
    omega

theorem regIds_newBranch (st : PSt) (n : String) (r t : Option String) (h : regWF st) :
    regIds (newBranch st n r t).2 = regIds st ++ [nbId n r] := by
  simp only [newBranch, regIds, List.map_append]
  congr 1
  · apply List.map_congr_left
    intro uid hu
    simp only [branchOf]
    rw [List.getElem?_append_left (h uid hu)]
  · simp [branchOf, List.getElem?_concat_length]

theorem buildBranchLine_ok (sep : String) (st : PSt) (line : String) (id : String)
    (h : regWF st) (hid : branchLineId sep line = some id) :
    ∃ st2, buildBranchLine sep st line = Except.ok st2 ∧
      regIds st2 = regIds st ++ [id] ∧ regWF st2 := by
  cases hp : (jsSplit line sep)[1]? with
  | none =>
    simp only [branchLineId, hp] at hid
    exact Option.noConfusion hid
  | some ref_name =>
    simp only [branchLineId, hp] at hid
    simp only [buildBranchLine, hp]
    by_cases hh : jsStartsWith ref_name "refs/heads/" = true
    · rw [if_pos hh] at hid ⊢
      injection hid with hid2
      refine ⟨_, rfl, ?_, regWF_newBranch st _ _ _ h⟩
      rw [regIds_newBranch st _ _ _ h, ← hid2]
      rfl
    · rw [if_neg hh] at hid ⊢
      injection hid with hid2
      refine ⟨_, rfl, ?_, regWF_newBranch st _ _ _ h⟩
      rw [regIds_newBranch st _ _ _ h, ← hid2]

theorem buildBranchLines_ok (sep : String) :
    ∀ (lines : List String) (st : PSt), regWF st →
    (∀ line ∈ lines, ∃ id, branchLineId sep line = some id) →
    ∃ st2, buildBranchLines sep lines st = Except.ok st2 ∧
      regIds st2 = regIds st ++ lines.filterMap (branchLineId sep) ∧ regWF st2 := by
  intro lines
  induction lines with
  | nil => exact fun st h _ => ⟨st, rfl, by simp, h⟩
  | cons line rest ih =>
    intro st hwf hall
    obtain ⟨id, hid⟩ := hall line (by simp)
    obtain ⟨st2, hok, hids, hwf2⟩ := buildBranchLine_ok sep st line id hwf hid
    obtain ⟨st3, hok3, hids3, hwf3⟩ := ih st2 hwf2 (fun l hl => hall l (by simp [hl]))
    refine ⟨st3, ?_, ?_, hwf3⟩
    · simp only [buildBranchLines, hok, Except.bind]
      exact hok3
    · rw [hids3, hids, List.filterMap_cons, hid]
      simp

/-- Claim C5 (amended): after the initial branch-registry construction
(the `branch_data` loop plus the `HEAD` pseudo-branch), no two live
branches share an id, provided every line yields an id, the derived ids
are pairwise distinct and none equals `HEAD`.  (At later points of
processing uniqueness can fail: see the counterexample, where a
synthesized inferred id collides with a registered branch id.) -/
theorem initial_registry_ids_nodup (branch_data sep : String)
    (hall : ∀ line ∈ jsSplit branch_data "\n", ∃ id, branchLineId sep line = some id)
    (hnodup : ((jsSplit branch_data "\n").filterMap (branchLineId sep)).Nodup)
    (hhead : "HEAD" ∉ (jsSplit branch_data "\n").filterMap (branchLineId sep)) :
    ∃ st, buildBranches branch_data sep = Except.ok st ∧ (regIds st).Nodup := by
  obtain ⟨st2, hok, hids, hwf2⟩ :=
    buildBranchLines_ok sep (jsSplit branch_data "\n") {} (by intro u hu; simp at hu) hall
  refine ⟨(newBranch st2 "HEAD" none none).2, ?_, ?_⟩
  · simp only [buildBranches, hok, Except.bind]
    rfl
  · rw [regIds_newBranch st2 _ _ _ hwf2, hids]
    have hempty : regIds {} = [] := rfl
    rw [hempty, List.nil_append]
    simp only [nbId]
    simp [List.nodup_append, hnodup]
    intro x hx hcontra
    exact hhead (List.mem_filterMap.mpr ⟨x, hx, hcontra⟩)

/-- The state built by `initial_registry_ids_nodup_witness`. -/
def c5wSt : PSt :=
  ((buildBranches "\x01refs/heads/master\n\x01refs/remotes/origin/dev" "\x01").toOption).getD {}

/-- Witness for `initial_registry_ids_nodup` on concrete branch data
with two distinct derived ids. -/
theorem initial_registry_ids_nodup_witness :
    buildBranches "\x01refs/heads/master\n\x01refs/remotes/origin/dev" "\x01" =
      Except.ok c5wSt ∧ (regIds c5wSt).Nodup := by
  obtain ⟨st, hok, hnd⟩ :=
    initial_registry_ids_nodup "\x01refs/heads/master\n\x01refs/remotes/origin/dev" "\x01"
      (by
        intro line hl
        have hsplit : jsSplit "\x01refs/heads/master\n\x01refs/remotes/origin/dev" "\n" =
            ["\x01refs/heads/master", "\x01refs/remotes/origin/dev"] := by decide
        rw [hsplit] at hl
        simp only [List.mem_cons, List.not_mem_nil, or_false] at hl
        rcases hl with h | h
        · exact ⟨"master", by rw [h]; decide⟩
        · exact ⟨"origin/dev", by rw [h]; decide⟩)
      (by decide) (by decide)
  have heq : c5wSt = st := by
    simp [c5wSt, hok, Except.toOption]
  rw [heq]
  exact ⟨hok, hnd⟩

/-! ## Claim C7: the closed glyph alphabet -/


theorem bindE_ok {E α β : Type} (x : α) (f : α → Except E β) :
    (Except.ok x : Except E α) >>= f = f x := rfl

theorem bindE_err {E α β : Type} (e : E) (f : α → Except E β) :
    (Except.error e : Except E α) >>= f = (Except.error e : Except E β) := rfl

theorem resolveStarFallback_ok (st : PSt) (v_nw v_ne : Option Cell) :
    ∃ p, resolveCell.resolveStarFallback st v_nw v_ne = Except.ok p := by
  unfold resolveCell.resolveStarFallback
  split_ifs <;> exact ⟨_, rfl⟩

theorem resolveCell_error (tip : Option Nat) (vis_chars : List Char) (i : Nat) (c : Char)
    (st : PSt) (vis_acc : List Cell) (e : ParseErr)
    (h : resolveCell tip vis_chars i c st vis_acc = Except.error e) :
    e = ParseErr.cellUndefined := by
  unfold resolveCell at h
  repeat' (first | split at h | simp only [] at h)
  all_goals
    first
    | exact Except.noConfusion h
    | (injection h with h2; exact h2.symm)
    | (obtain ⟨p, hp⟩ := resolveStarFallback_ok _ _ _
       rw [hp] at h; exact Except.noConfusion h)

theorem cellLoop_error (tip : Option Nat) (vis_chars : List Char) :
    ∀ (items : List (Nat × Char)) (st : PSt) (vis_acc : List Cell) (cb : Option Nat)
      (e : ParseErr), cellLoop tip vis_chars items st vis_acc cb = Except.error e →
      e = ParseErr.cellUndefined := by
  intro items
  induction items with
  | nil => intro st acc cb e h; exact Except.noConfusion h
  | cons ic rest ih =>
    intro st acc cb e h
    obtain ⟨i, c⟩ := ic
    rw [cellLoop] at h
    cases hr : resolveCell tip vis_chars i c st acc with
    | error e2 =>
      rw [hr, bindE_err] at h
      injection h with h2
      exact h2 ▸ resolveCell_error tip vis_chars i c st acc e2 hr
    | ok p =>
      rw [hr, bindE_ok] at h
      exact ih _ _ _ _ h

def badPrefix (sep row : String) : Bool :=
  (jsTrimEnd (((jsSplit row sep)[0]?).getD "")).any (fun v => !graph_chars.contains v)

theorem rowStep_bad (sep : String) (r : Q) (row_no : Nat) (row : String) (st : PSt)
    (h1 : row ≠ "... ") (h2 : badPrefix sep row = true) :
    rowStep sep r row_no row st = Except.error (ParseErr.unknownGlyph row_no) := by
  simp only [badPrefix] at h2
  simp only [rowStep, if_neg h1]
  rw [if_pos h2]

theorem rowStep_error (sep : String) (r : Q) (row_no : Nat) (row : String) (st : PSt)
    (e : ParseErr) (h : rowStep sep r row_no row st = Except.error e) :
    (e = ParseErr.unknownGlyph row_no ∧ row ≠ "... " ∧ badPrefix sep row = true)
    ∨ e = ParseErr.cellUndefined := by
  simp only [rowStep] at h
  by_cases h1 : row = "... "
  · rw [if_pos h1] at h; exact Except.noConfusion h
  · rw [if_neg h1] at h
    by_cases h2 : (jsTrimEnd (((jsSplit row sep)[0]?).getD "")).any
        (fun v => !graph_chars.contains v) = true
    · rw [if_pos h2] at h
      injection h with h3
      exact Or.inl ⟨h3.symm, h1, by simpa [badPrefix] using h2⟩
    · rw [if_neg h2] at h
      cases hc : cellLoop (branchTip (resolveRefs st (((jsSplit row sep)[6]?).getD "")))
          (jsTrimEnd (((jsSplit row sep)[0]?).getD ""))
          (withIdx 0 (jsTrimEnd (((jsSplit row sep)[0]?).getD ""))).reverse st [] none with
      | error e2 =>
        rw [hc, bindE_err] at h
        injection h with h3
        exact Or.inr (h3 ▸ cellLoop_error _ _ _ _ _ _ _ hc)
      | ok p =>
        rw [hc, bindE_ok] at h
        obtain ⟨st2, vis, cb⟩ := p
        exact Except.noConfusion h


theorem buildBranchLine_error (sep : String) (st : PSt) (line : String) (e : ParseErr)
    (h : buildBranchLine sep st line = Except.error e) : e = ParseErr.refNameUndefined := by
  unfold buildBranchLine at h
  repeat' (first | split at h | simp only [] at h)
  all_goals
    first
    | exact Except.noConfusion h
    | (injection h with h2; exact h2.symm)

theorem buildBranchLines_error (sep : String) :
    ∀ (lines : List String) (st : PSt) (e : ParseErr),
      buildBranchLines sep lines st = Except.error e → e = ParseErr.refNameUndefined := by
  intro lines
  induction lines with
  | nil => intro st e h; exact Except.noConfusion h
  | cons line rest ih =>
    intro st e h
    rw [buildBranchLines] at h
    cases hl : buildBranchLine sep st line with
    | error e2 =>
      rw [hl, bindE_err] at h
      injection h with h2
      exact h2 ▸ buildBranchLine_error sep st line e2 hl
    | ok st2 =>
      rw [hl, bindE_ok] at h
      exact ih st2 e h

theorem buildBranches_no_unknown (branch_data sep : String) (n : Nat) :
    ¬ buildBranches branch_data sep = Except.error (ParseErr.unknownGlyph n) := by
  intro h
  rw [buildBranches] at h
  cases hl : buildBranchLines sep (jsSplit branch_data "\n") {} with
  | error e2 =>
    rw [hl, bindE_err] at h
    injection h with h2
    have := buildBranchLines_error sep _ _ _ hl
    rw [this] at h2
    exact ParseErr.noConfusion h2
  | ok st2 =>
    rw [hl, bindE_ok] at h
    exact Except.noConfusion h


theorem rowLoop_error_unknown (sep : String) (r : Q) :
    ∀ (rows : List (Nat × String)) (st : PSt) (n : Nat),
      rowLoop sep r rows st = Except.error (ParseErr.unknownGlyph n) →
      ∃ row, (n, row) ∈ rows ∧ row ≠ "... " ∧ badPrefix sep row = true := by
  intro rows
  induction rows with
  | nil => intro st n h; exact Except.noConfusion h
  | cons p rest ih =>
    intro st n h
    obtain ⟨m, row⟩ := p
    rw [rowLoop] at h
    cases hs : rowStep sep r m row st with
    | error e2 =>
      rw [hs, bindE_err] at h
      injection h with h2
      subst h2
      rcases rowStep_error sep r m row st _ hs with ⟨he, hne, hbad⟩ | he
      · injection he with hm
        exact ⟨row, by simp [hm], hne, hbad⟩
      · exact absurd he (by simp)
    | ok st2 =>
      rw [hs, bindE_ok] at h
      obtain ⟨row2, hmem, hne, hbad⟩ := ih st2 n h
      exact ⟨row2, by simp [hmem], hne, hbad⟩

theorem withIdx_mem {α : Type} :
    ∀ (l : List α) (k n : Nat) (x : α), (n, x) ∈ withIdx k l →
      ∃ j, n = k + j ∧ l[j]? = some x := by
  intro l
  induction l with
  | nil => intro k n x h; exact absurd h (by simp [withIdx])
  | cons a rest ih =>
    intro k n x h
    rw [withIdx] at h
    rcases List.mem_cons.mp h with h1 | h1
    · injection h1 with h2 h3
      exact ⟨0, by omega, by simp [h3.symm]⟩
    · obtain ⟨j, hj, hget⟩ := ih (k + 1) n x h1
      exact ⟨j + 1, by omega, by simpa using hget⟩

theorem withIdx_append {α : Type} :
    ∀ (l1 l2 : List α) (k : Nat),
      withIdx k (l1 ++ l2) = withIdx k l1 ++ withIdx (k + l1.length) l2 := by
  intro l1
  induction l1 with
  | nil => intro l2 k; simp [withIdx]
  | cons a rest ih =>
    intro l2 k
    have hk : k + 1 + rest.length = k + (rest.length + 1) := by omega
    simp only [List.cons_append, withIdx, List.append_eq, ih, List.length_cons, hk]

theorem rowLoop_append (sep : String) (r : Q) :
    ∀ (l1 l2 : List (Nat × String)) (st : PSt),
      rowLoop sep r (l1 ++ l2) st =
        (rowLoop sep r l1 st) >>= (fun st2 => rowLoop sep r l2 st2) := by
  intro l1
  induction l1 with
  | nil => intro l2 st; rw [List.nil_append, rowLoop, bindE_ok]
  | cons p rest ih =>
    intro l2 st
    obtain ⟨m, row⟩ := p
    rw [List.cons_append, rowLoop, rowLoop]
    cases hs : rowStep sep r m row st with
    | error e2 => rw [bindE_err, bindE_err, bindE_err]
    | ok st2 => rw [bindE_ok, bindE_ok, ih]

/-- Claim C7: a row whose glyph prefix (taken before the first separator and
trimmed of trailing whitespace) holds a character outside the closed alphabet
makes `parse` abort with the unknown-glyph error naming that row (provided the
registry build and the earlier rows went through), and conversely the
unknown-glyph error for row `n` is raised only when row `n` exists, is not the
ellipsis row and holds such a character. -/
theorem closed_alphabet_fatal (log_data branch_data stash_data sep : String)
    (r : Q) (n : Nat) :
    (parse log_data branch_data stash_data sep r = Except.error (ParseErr.unknownGlyph n) →
      ∃ row, (jsSplit log_data "\n")[n]? = some row ∧ row ≠ "... " ∧
        badPrefix sep row = true)
    ∧
    (∀ st0 st1 row,
      buildBranches branch_data sep = Except.ok st0 →
      rowLoop sep r (withIdx 0 ((jsSplit log_data "\n").take n)) st0 = Except.ok st1 →
      (jsSplit log_data "\n")[n]? = some row →
      row ≠ "... " →
      badPrefix sep row = true →
      parse log_data branch_data stash_data sep r =
        Except.error (ParseErr.unknownGlyph n)) := by
  constructor
  · intro h
    simp only [parse, parseRun] at h
    cases hb : buildBranches branch_data sep with
    | error e =>
      rw [hb, bindE_err] at h
      simp only [Except.map] at h
      injection h with h2
      subst h2
      exact absurd hb (buildBranches_no_unknown branch_data sep n)
    | ok st0 =>
      rw [hb, bindE_ok] at h
      cases hr : rowLoop sep r (withIdx 0 (jsSplit log_data "\n")) st0 with
      | error e =>
        rw [hr, bindE_err] at h
        simp only [Except.map] at h
        injection h with h2
        subst h2
        obtain ⟨row, hmem, hne, hbad⟩ := rowLoop_error_unknown sep r _ st0 n hr
        obtain ⟨j, hj, hget⟩ := withIdx_mem _ 0 n row hmem
        have hn : j = n := by omega
        rw [hn] at hget
        exact ⟨row, hget, hne, hbad⟩
      | ok st1 =>
        rw [hr, bindE_ok] at h
        simp only [Except.map] at h
        exact Except.noConfusion h
  · intro st0 st1 row hb hloop hget hne hbad
    have hlen : n < (jsSplit log_data "\n").length := by
      by_contra hc
      rw [List.getElem?_eq_none (by omega)] at hget
      exact Option.noConfusion hget
    have hdecomp : jsSplit log_data "\n" =
        (jsSplit log_data "\n").take n ++ row :: (jsSplit log_data "\n").drop (n + 1) := by
      conv_lhs => rw [← List.take_append_drop n (jsSplit log_data "\n")]
      congr 1
      rw [List.drop_eq_getElem_cons hlen]
      congr 1
      rw [← Option.some_inj, ← List.getElem?_eq_getElem hlen]
      exact hget
    simp only [parse, parseRun]
    rw [hb, bindE_ok]
    conv_lhs => rw [hdecomp]
    rw [withIdx_append, rowLoop_append, hloop, bindE_ok]
    have hlentake : ((jsSplit log_data "\n").take n).length = n :=
      List.length_take_of_le (by omega)
    rw [hlentake, Nat.zero_add, withIdx, rowLoop,
      rowStep_bad sep r n row st1 hne hbad, bindE_err, bindE_err]
    rfl


/-- The registry state of the C7 witness input. -/
def c7St0 : PSt :=
  ((buildBranches "\x01refs/heads/master" "\x01").toOption).getD {}

/-- Witness for `closed_alphabet_fatal`: the glyph `#` in row 0 aborts the
parse with the unknown-glyph error naming row 0. -/
theorem closed_alphabet_fatal_witness :
    parse "*#" "\x01refs/heads/master" "" "\x01" (1/4) =
      Except.error (ParseErr.unknownGlyph 0) :=
  (closed_alphabet_fatal "*#" "\x01refs/heads/master" "" "\x01" (1/4) 0).2
    c7St0 c7St0 "*#" (by rfl) (by rfl) (by rfl) (by decide) (by rfl)

/-! ## Claim C8: the output branch listing -/


theorem jsOr3_nonneg (d1 d2 d3 : Int) :
    0 ≤ jsOr d1 (jsOr d2 d3) ↔
      (0 < d1 ∨ (d1 = 0 ∧ 0 < d2) ∨ (d1 = 0 ∧ d2 = 0 ∧ 0 ≤ d3)) := by
  simp only [jsOr]
  split_ifs <;> omega

/-- First sort key of the comparator: tags and short-form ids count 1. -/
def refK1 (id : String) : Int :=
  if jsStartsWith id "tag: " || !jsStartsWith id "refs/" then 1 else 0

/-- Second sort key: non-tags count 1 (tags sort later on the tie). -/
def refK2 (id : String) : Int := if jsStartsWith id "tag: " then 0 else 1

/-- Third sort key: position of the first slash. -/
def refK3 (id : String) : Int := jsIndexOfChar id '/'

theorem gitRefSortIds_key (x y : String) :
    gitRefSortIds x y =
      jsOr (refK1 x - refK1 y) (jsOr (refK2 x - refK2 y) (refK3 x - refK3 y)) := by
  simp only [gitRefSortIds, refK1, refK2, refK3, jsOr]
  split_ifs <;> omega

theorem gitRefSortIds_antisym (x y : String) :
    gitRefSortIds x y = - gitRefSortIds y x := by
  rw [gitRefSortIds_key, gitRefSortIds_key]
  simp only [jsOr]
  split_ifs <;> omega

theorem gitRefSortIds_nonneg_trans (x y z : String)
    (h1 : 0 ≤ gitRefSortIds x y) (h2 : 0 ≤ gitRefSortIds y z) :
    0 ≤ gitRefSortIds x z := by
  rw [gitRefSortIds_key] at h1 h2 ⊢
  rw [jsOr3_nonneg] at h1 h2 ⊢
  omega

theorem jsInsert_perm (c : α → α → Bool) (x : α) :
    ∀ l : List α, List.Perm (jsInsert c x l) (x :: l) := by
  intro l
  induction l with
  | nil => exact List.Perm.refl _
  | cons y ys ih =>
    rw [jsInsert]
    by_cases hc : c y x = true
    · rw [if_pos hc]
      exact List.Perm.trans (List.Perm.cons y ih) (List.Perm.swap x y ys)
    · rw [if_neg hc]

theorem jsSort_perm (c : α → α → Bool) :
    ∀ l : List α, List.Perm (jsSort c l) l := by
  intro l
  induction l with
  | nil => exact List.Perm.refl _
  | cons x xs ih =>
    rw [jsSort]
    exact List.Perm.trans (jsInsert_perm c x (jsSort c xs)) (List.Perm.cons x ih)

theorem jsInsert_sorted (c : α → α → Bool)
    (hasym : ∀ a b, c a b = true → c b a = false)
    (hneg : ∀ a b d, c b a = false → c d b = false → c d a = false)
    (x : α) : ∀ l : List α, l.Pairwise (fun a b => c b a = false) →
      (jsInsert c x l).Pairwise (fun a b => c b a = false) := by
  intro l
  induction l with
  | nil => intro _; exact List.pairwise_singleton _ x
  | cons y ys ih =>
    intro hl
    rw [List.pairwise_cons] at hl
    obtain ⟨hy, hys⟩ := hl
    rw [jsInsert]
    by_cases hc : c y x = true
    · rw [if_pos hc]
      rw [List.pairwise_cons]
      refine ⟨?_, ih hys⟩
      intro z hz
      rcases List.mem_cons.mp ((jsInsert_perm c x ys).mem_iff.mp hz) with hz1 | hz1
      · exact hz1 ▸ hasym y x hc
      · exact hy z hz1
    · rw [if_neg hc]
      have hcf : c y x = false := by
        cases hcc : c y x with
        | true => exact absurd hcc hc
        | false => rfl
      rw [List.pairwise_cons]
      refine ⟨?_, List.Pairwise.cons hy hys⟩
      intro z hz
      rcases List.mem_cons.mp hz with hz1 | hz1
      · exact hz1 ▸ hcf
      · exact hneg x y z hcf (hy z hz1)

theorem jsSort_sorted (c : α → α → Bool)
    (hasym : ∀ a b, c a b = true → c b a = false)
    (hneg : ∀ a b d, c b a = false → c d b = false → c d a = false) :
    ∀ l : List α, (jsSort c l).Pairwise (fun a b => c b a = false) := by
  intro l
  induction l with
  | nil => exact List.Pairwise.nil
  | cons x xs ih =>
    rw [jsSort]
    exact jsInsert_sorted c hasym hneg x (jsSort c xs) ih

theorem branchLt_asym (a b : Branch) (h : branchLt a b = true) : branchLt b a = false := by
  simp only [branchLt, decide_eq_true_eq] at h
  simp only [branchLt, decide_eq_false_iff_not]
  rw [gitRefSortIds_antisym]
  omega

theorem branchLt_neg_trans (a b d : Branch) (h1 : branchLt b a = false)
    (h2 : branchLt d b = false) : branchLt d a = false := by
  simp only [branchLt, decide_eq_false_iff_not, not_lt] at h1 h2 ⊢
  exact gitRefSortIds_nonneg_trans d.id b.id a.id h2 h1

/-- Claim C8: on every successful parse the output branch listing is exactly
the live registry filtered of inferred branches, sorted by the `git_ref_sort`
comparator and truncated to 10000 entries: every listed branch is a registered
non-inferred branch, the listing never exceeds 10000 entries, below the cap it
holds exactly the registered non-inferred branches (as a permutation of the
filtered registry), and it is sorted by the comparator. -/
theorem branch_listing_spec (log_data branch_data stash_data sep : String) (r : Q)
    (st : PSt) (out : ParseOutput)
    (h : parseRun log_data branch_data stash_data sep r = Except.ok (st, out)) :
    out.branches =
      (jsSort branchLt ((liveBranches st).filter (fun b => !b.inferred))).take 10000
    ∧ (∀ b ∈ out.branches, b.inferred = false ∧ b ∈ liveBranches st)
    ∧ out.branches.length ≤ 10000
    ∧ (((liveBranches st).filter (fun b => !b.inferred)).length ≤ 10000 →
        List.Perm out.branches ((liveBranches st).filter (fun b => !b.inferred)))
    ∧ out.branches.Pairwise (fun a b => branchLt b a = false) := by
  have hout : out.branches = outputBranches st := by
    simp only [parseRun] at h
    cases hb : buildBranches branch_data sep with
    | error e => rw [hb, bindE_err] at h; exact Except.noConfusion h
    | ok st0 =>
      rw [hb, bindE_ok] at h
      cases hr : rowLoop sep r (withIdx 0 (jsSplit log_data "\n")) st0 with
      | error e => rw [hr, bindE_err] at h; exact Except.noConfusion h
      | ok st1 =>
        rw [hr, bindE_ok] at h
        injection h with h2
        have hst : st = assignColors st1 := (congrArg Prod.fst h2).symm
        have hout2 : out = buildOutput (assignColors st1) stash_data :=
          (congrArg Prod.snd h2).symm
        rw [hout2, hst]
        rfl
  refine ⟨hout, ?_, ?_, ?_, ?_⟩
  · intro b hbm
    rw [hout, outputBranches] at hbm
    have hb2 := List.mem_of_mem_take hbm
    have hb3 := (jsSort_perm branchLt _).mem_iff.mp hb2
    rw [List.mem_filter] at hb3
    exact ⟨by simpa using hb3.2, hb3.1⟩
  · rw [hout, outputBranches]
    exact List.length_take_le _ _
  · intro hlen
    rw [hout, outputBranches]
    have hlen2 : (jsSort branchLt
        ((liveBranches st).filter (fun b => !b.inferred))).length ≤ 10000 := by
      rw [(jsSort_perm branchLt _).length_eq]
      exact hlen
    rw [List.take_of_length_le hlen2]
    exact jsSort_perm branchLt _
  · rw [hout, outputBranches]
    exact (jsSort_sorted branchLt branchLt_asym branchLt_neg_trans _).sublist
      (List.take_sublist _ _)


/-- The final state and output of the C8 witness run (Scenario A). -/
def c8Pair : PSt × ParseOutput :=
  ((parseRun scenALog scenABranch "" sepA (1/4)).toOption).getD ({}, ⟨[], []⟩)

/-- Witness for `branch_listing_spec`: the Scenario A run satisfies the
listing equation and the cap. -/
theorem branch_listing_spec_witness :
    c8Pair.2.branches =
      (jsSort branchLt ((liveBranches c8Pair.1).filter (fun b => !b.inferred))).take 10000
    ∧ c8Pair.2.branches.length ≤ 10000 := by
  have hmain :=
    branch_listing_spec scenALog scenABranch "" sepA (1/4) c8Pair.1 c8Pair.2 (by rfl)
  exact ⟨hmain.1, hmain.2.2.1⟩

/-! ## Claim C9: stash attachment -/


theorem findIdxQ_none_spec (p : α → Bool) :
    ∀ (l : List α) (s : Nat), List.findIdx? p l s = none → ∀ x ∈ l, p x = false := by
  intro l
  induction l with
  | nil => intro s _ x hx; exact absurd hx (List.not_mem_nil x)
  | cons a rest ih =>
    intro s h x hx
    rw [List.findIdx?_cons] at h
    by_cases hp : p a = true
    · rw [if_pos hp] at h; exact Option.noConfusion h
    · rw [if_neg hp] at h
      rcases List.mem_cons.mp hx with h1 | h1
      · subst h1
        cases hpp : p x with
        | true => exact absurd hpp hp
        | false => rfl
      · exact ih (s + 1) h x h1

theorem findIdxQ_some_spec (p : α → Bool) :
    ∀ (l : List α) (s idx : Nat), List.findIdx? p l s = some idx →
      s ≤ idx ∧ ∃ x, l[idx - s]? = some x ∧ p x = true ∧
        ∀ j y, j < idx - s → l[j]? = some y → p y = false := by
  intro l
  induction l with
  | nil => intro s idx h; rw [List.findIdx?_nil] at h; exact Option.noConfusion h
  | cons a rest ih =>
    intro s idx h
    rw [List.findIdx?_cons] at h
    by_cases hp : p a = true
    · rw [if_pos hp] at h
      injection h with h2
      subst h2
      refine ⟨Nat.le_refl s, a, by simp, hp, ?_⟩
      intro j y hj
      omega
    · rw [if_neg hp] at h
      obtain ⟨hle, x, hx, hpx, hmin⟩ := ih (s + 1) idx h
      refine ⟨by omega, x, ?_, hpx, ?_⟩
      · have hidx : idx - s = (idx - (s + 1)) + 1 := by omega
        rw [hidx]
        simpa using hx
      · intro j y hj hy
        match j with
        | 0 =>
          rw [List.getElem?_cons_zero] at hy
          injection hy with hy2
          rw [← hy2]
          cases hpp : p a with
          | true => exact absurd hpp hp
          | false => rfl
        | j + 1 =>
          exact hmin j y (by omega) (by simpa using hy)

/-- Claim C9: for a stash line, when some commit's hash equals the first
word exactly, the first such commit gets the synthetic stash ref (named by
the rest of the line) appended to its ref list, every other commit is left
unchanged, and the stash ref resolves to `{name, id, type stash, color
#fff}`; when no commit matches, the commit list is returned unchanged
(and no error is possible: `attachStash` is total). -/
theorem stash_attach_spec (st : PSt) (line : String) (cs : List Commit) :
    ((∃ c ∈ cs, c.hash = ((jsSplit line " ")[0]?).getD "") →
      ∃ (idx : Nat) (c : Commit), cs[idx]? = some c ∧ c.hash = ((jsSplit line " ")[0]?).getD "" ∧
        (∀ j y, j < idx → cs[j]? = some y →
          ¬ y.hash = ((jsSplit line " ")[0]?).getD "") ∧
        (attachStash line cs)[idx]? = some { c with refs := c.refs ++
            [GitRef.stash (jsJoin " " ((jsSplit line " ").drop 1))
                          (jsJoin " " ((jsSplit line " ").drop 1))] } ∧
        (∀ j, ¬ j = idx → (attachStash line cs)[j]? = cs[j]?))
    ∧ ((∀ c ∈ cs, ¬ c.hash = ((jsSplit line " ")[0]?).getD "") →
        attachStash line cs = cs)
    ∧ (∀ name, resolveRef st (GitRef.stash name name) =
        { id := name, name := name, rtype := "stash", color := some "#fff",
          branch := none }) := by
  refine ⟨?_, ?_, fun name => rfl⟩
  · intro hex
    cases hf : cs.findIdx? (fun c => c.hash = ((jsSplit line " ")[0]?).getD "") with
    | none =>
      exfalso
      obtain ⟨c, hc, hh⟩ := hex
      have hfa := findIdxQ_none_spec _ cs 0 hf c hc
      simp [hh] at hfa
    | some idx =>
      obtain ⟨hle, x, hx, hpx, hmin⟩ := findIdxQ_some_spec _ cs 0 idx hf
      simp only [Nat.sub_zero] at hx hmin
      refine ⟨idx, x, hx, by simpa using hpx, ?_, ?_, ?_⟩
      · intro j y hj hy
        have := hmin j y hj hy
        simpa using this
      · simp only [attachStash, hf]
        rw [listModify_get_self, hx]
        rfl
      · intro j hj
        simp only [attachStash, hf]
        exact listModify_get_other cs idx j _ (fun he => hj he.symm)
  · intro hall
    cases hf : cs.findIdx? (fun c => c.hash = ((jsSplit line " ")[0]?).getD "") with
    | none => simp only [attachStash, hf]
    | some idx =>
      exfalso
      obtain ⟨hle, x, hx, hpx, hmin⟩ := findIdxQ_some_spec _ cs 0 idx hf
      simp only [Nat.sub_zero] at hx
      have hxm : x ∈ cs := List.getElem?_mem hx
      have := hall x hxm
      simp at hpx
      exact this hpx

/-- The single commit of the C9 witness. -/
def c9c : Commit :=
  { i := 0, vis_lines := [], branch := none, hash_long := "deadbee1234567",
    hash := "deadbee", author_name := "A", author_email := "a@x",
    datetime := "", refs := [], subject := "s" }

/-- The single-commit list of the C9 witness. -/
def c9Cs : List Commit := [c9c]

/-- Witness for `stash_attach_spec`: a non-matching stash line leaves the
commit list unchanged and a matching one appends the stash ref. -/
theorem stash_attach_spec_witness :
    attachStash "facefee stash@\x7b0\x7d: WIP" c9Cs = c9Cs ∧
    (attachStash "deadbee stash@\x7b0\x7d: WIP" c9Cs)[0]? =
      some { c9c with
        refs := [GitRef.stash "stash@\x7b0\x7d: WIP" "stash@\x7b0\x7d: WIP"] } := by
  constructor
  · exact (stash_attach_spec {} "facefee stash@\x7b0\x7d: WIP" c9Cs).2.1 (by decide)
  · obtain ⟨idx, c, hidx, hhash, hfirst, happ, hother⟩ :=
      (stash_attach_spec {} "deadbee stash@\x7b0\x7d: WIP" c9Cs).1
        ⟨c9c, by decide, by decide⟩
    have hidx0 : idx = 0 := by
      by_contra hne
      have h1 := hfirst 0 c9c
      rcases idx with _ | idx2
      · exact hne rfl
      · exact (h1 (by omega) (by decide)) (by decide)
    subst hidx0
    have hc : c = c9c := by
      have h2 : c9Cs[0]? = some c := hidx
      rw [show c9Cs[0]? = some c9c from rfl] at h2
      injection h2 with h3
      exact h3.symm
    rw [happ, hc]
    rfl


/-! ## Claim C10: branch lines without the separator -/


theorem buildBranchLine_noRef (sep : String) (st : PSt) (line : String)
    (hnosep : (jsSplit line sep)[1]? = none) :
    buildBranchLine sep st line = Except.error ParseErr.refNameUndefined := by
  simp only [buildBranchLine, hnosep]

theorem buildBranchLine_someRef (sep : String) (st : PSt) (line : String) (ref : String)
    (hp : (jsSplit line sep)[1]? = some ref) :
    ∃ st2, buildBranchLine sep st line = Except.ok st2 := by
  simp only [buildBranchLine, hp]
  split_ifs <;> exact ⟨_, rfl⟩

theorem buildBranchLines_noRef (sep : String) :
    ∀ (lines : List String) (st : PSt),
      (∃ line ∈ lines, (jsSplit line sep)[1]? = none) →
      buildBranchLines sep lines st = Except.error ParseErr.refNameUndefined := by
  intro lines
  induction lines with
  | nil => intro st h; exact absurd h (by simp)
  | cons line rest ih =>
    intro st hex
    cases hp : (jsSplit line sep)[1]? with
    | none =>
      rw [buildBranchLines, buildBranchLine_noRef sep st line hp, bindE_err]
    | some ref =>
      obtain ⟨st2, hok⟩ := buildBranchLine_someRef sep st line ref hp
      rw [buildBranchLines, hok, bindE_ok]
      apply ih
      obtain ⟨l2, hl2, hn2⟩ := hex
      rcases List.mem_cons.mp hl2 with h1 | h1
      · subst h1
        rw [hp] at hn2
        exact absurd hn2 (by simp)
      · exact ⟨l2, h1, hn2⟩

/-- Claim C10: whenever some line of `branch_data` does not contain the
separator (its split has no second field, so the ref-path read is
`undefined`), `parse` throws the `TypeError` of the registry build
(reading `startsWith` of `undefined`) regardless of the log data; in
particular this happens for empty `branch_data`, whose single split line
is the empty string.  The failure is a different error value than the
unknown-glyph fatal error. -/
theorem branch_data_line_without_sep_throws
    (log_data branch_data stash_data sep : String) (r : Q) (line : String)
    (hmem : line ∈ jsSplit branch_data "\n")
    (hnosep : (jsSplit line sep)[1]? = none) :
    parse log_data branch_data stash_data sep r =
      Except.error ParseErr.refNameUndefined := by
  simp only [parse, parseRun, buildBranches]
  rw [buildBranchLines_noRef sep (jsSplit branch_data "\n") {} ⟨line, hmem, hnosep⟩,
    bindE_err, bindE_err]
  rfl

/-- Witness for `branch_data_line_without_sep_throws`: empty branch data
makes `parse` throw while building the registry. -/
theorem branch_data_line_without_sep_throws_witness :
    parse scenALog "" "" sepA (1/4) = Except.error ParseErr.refNameUndefined :=
  branch_data_line_without_sep_throws scenALog "" "" sepA (1/4) ""
    (by decide) (by decide)


end GG
